import Mathlib

/-!
Verification of the Kohonen self-organizing map implementation (kohonen.py).

The Python code is shallowly embedded: weight vectors become `List ℝ`,
the neuron grid becomes `List (List Neuron)`, mutation becomes explicit
state passing, and operations that can raise a Python exception return
`Option`.  Floating point arithmetic is modelled by real arithmetic.
-/

/-- A neuron of the map: weight vector, grid position and last output
(`Neuron.__init__` in kohonen.py). Positions are integers, as in Python. -/
structure Neuron where
  weights : List ℝ
  posx : ℤ
  posy : ℤ
  y : ℝ

instance : Inhabited Neuron := ⟨⟨[], 0, 0, 0⟩⟩

/-- Elementwise difference `x - w` of two vectors (numpy `x - self.weights`). -/
noncomputable def listSub (x w : List ℝ) : List ℝ := List.zipWith (fun a b => a - b) x w

/-- Euclidean norm of a vector (`numpy.linalg.norm`). -/
noncomputable def euclidNorm (v : List ℝ) : ℝ := Real.sqrt ((v.map fun t => t ^ 2).sum)

/-- `Neuron.compute`: store the Euclidean distance between the input and the
weight vector as the neuron's output `y`. -/
noncomputable def Neuron.compute (n : Neuron) (x : List ℝ) : Neuron :=
  { n with y := euclidNorm (listSub x n.weights) }

/-- `Neuron.learn`: Kohonen weight update.  Mirrors
`self.weights[:] += eta * math.exp(-((abs(self.posx - posxbmu) + abs(self.posy - posybmu)) ** 2) / (2 * sigma * sigma)) * (x - self.weights)`,
with the scalar Gaussian factor evaluated once as in the vectorized numpy
expression. -/
noncomputable def Neuron.learn (n : Neuron) (eta sigma : ℝ) (posxbmu posybmu : ℤ)
    (x : List ℝ) : Neuron :=
  let kern : ℝ :=
    Real.exp ((-(((|n.posx - posxbmu| + |n.posy - posybmu| : ℤ) : ℝ) ^ 2))
      / (2 * sigma * sigma))
  { n with weights := List.zipWith (fun w xi => w + eta * kern * (xi - w)) n.weights x }

/-- The self-organizing map (`SOM.__init__`): grid size, the grid of neurons
and the mirrored activity grid. -/
structure SOM where
  gridsize : ℕ × ℕ
  map : List (List Neuron)
  activitymap : List (List ℝ)

/-- `SOM.compute`: every neuron computes its activity on the common input and
the activity map is refreshed from the neurons' outputs. -/
noncomputable def SOM.compute (s : SOM) (x : List ℝ) : SOM :=
  { s with
    map := s.map.map fun row => row.map fun n => n.compute x,
    activitymap :=
      (s.map.map fun row => row.map fun n => n.compute x).map fun row =>
        row.map fun n => n.y }

/-- Index of the first occurrence of the minimum of a list
(`numpy.argmin` on the flattened activity map). -/
noncomputable def argminFlat : List ℝ → ℕ
  | [] => 0
  | [_] => 0
  | a :: b :: t =>
    if a ≤ (b :: t).getD (argminFlat (b :: t)) 0 then 0 else argminFlat (b :: t) + 1

/-- Best matching unit: `numpy.unravel_index(numpy.argmin(self.activitymap), self.gridsize)`,
row-major. -/
noncomputable def SOM.bmu (s : SOM) : ℕ × ℕ :=
  (argminFlat s.activitymap.flatten / s.gridsize.2,
   argminFlat s.activitymap.flatten % s.gridsize.2)

/-- `SOM.learn`: find the best matching unit in the current activity map and
apply the Kohonen update to every neuron. -/
noncomputable def SOM.learn (s : SOM) (eta sigma : ℝ) (x : List ℝ) : SOM :=
  { s with map := s.map.map fun row => row.map fun n =>
      n.learn eta sigma ((s.bmu).1 : ℤ) ((s.bmu).2 : ℤ) x }

/-- The neuron stored at grid position `(i, j)` (`map[i][j]`). -/
def cellOf (m : List (List Neuron)) (i j : ℕ) : Neuron := (m.getD i []).getD j default

/-- The neuron of a SOM at grid position `(i, j)`. -/
def SOM.cell (s : SOM) (i j : ℕ) : Neuron := cellOf s.map i j

/-- The activity map entry at grid position `(i, j)`. -/
def SOM.act (s : SOM) (i j : ℕ) : ℝ := (s.activitymap.getD i []).getD j 0

/-- Construction invariant of `SOM.__init__`: the grid of neurons matches the
declared grid size, every neuron records its own grid position, and every
weight vector has the declared input dimensionality `d`. -/
def SOM.WF (s : SOM) (d : ℕ) : Prop :=
  s.map.length = s.gridsize.1 ∧
  (∀ row ∈ s.map, row.length = s.gridsize.2) ∧
  ∀ i j, i < s.gridsize.1 → j < s.gridsize.2 →
    (s.cell i j).posx = (i : ℤ) ∧ (s.cell i j).posy = (j : ℤ) ∧
      (s.cell i j).weights.length = d

/-- Concrete one-cell map used in counterexamples and witnesses. -/
def som0 : SOM := ⟨(1, 1), [[⟨[0, 0], 0, 0, 0⟩]], [[0]]⟩

/-- Weight coordinate `k` of the cell at `(i, j)` (`map[i][j].weights[k]`). -/
def w01 (m : List (List Neuron)) (i j k : ℕ) : ℝ := (cellOf m i j).weights.getD k 0

/-- `SOM.get_distance_with_neighbor`: squared differences of the first two
weight coordinates against the previous-row neighbor (or, on row 0, the next-row
neighbor when it exists), plus the same for columns. -/
noncomputable def get_distance_with_neighbor (m : List (List Neuron))
    (posx posy : ℕ) : ℝ :=
  (if posx ≠ 0 then
      |w01 m (posx - 1) posy 0 - w01 m posx posy 0| ^ 2
        + |w01 m (posx - 1) posy 1 - w01 m posx posy 1| ^ 2
    else if posx ≠ m.length - 1 then
      |w01 m posx posy 0 - w01 m (posx + 1) posy 0| ^ 2
        + |w01 m posx posy 1 - w01 m (posx + 1) posy 1| ^ 2
    else 0)
  + (if posy ≠ 0 then
      |w01 m posx (posy - 1) 0 - w01 m posx posy 0| ^ 2
        + |w01 m posx (posy - 1) 1 - w01 m posx posy 1| ^ 2
    else if posy ≠ (m.getD posx []).length - 1 then
      |w01 m posx posy 0 - w01 m posx (posy + 1) 0| ^ 2
        + |w01 m posx posy 1 - w01 m posx (posy + 1) 1| ^ 2
    else 0)

/-- `SOM.get_map_dispertion`: total of `get_distance_with_neighbor` over the grid. -/
noncomputable def get_map_dispertion (m : List (List Neuron)) : ℝ :=
  ((List.range m.length).map fun i =>
    ((List.range (m.getD i []).length).map fun j =>
      get_distance_with_neighbor m i j).sum).sum

/-- Squared difference of the first two weight coordinates between the cell at
`(a, j)` and its +row neighbor `(a+1, j)`. -/
noncomputable def vPair (m : List (List Neuron)) (a j : ℕ) : ℝ :=
  |w01 m a j 0 - w01 m (a + 1) j 0| ^ 2 + |w01 m a j 1 - w01 m (a + 1) j 1| ^ 2

/-- Squared difference of the first two weight coordinates between the cell at
`(i, a)` and its +column neighbor `(i, a+1)`. -/
noncomputable def hPair (m : List (List Neuron)) (i a : ℕ) : ℝ :=
  |w01 m i a 0 - w01 m i (a + 1) 0| ^ 2 + |w01 m i a 1 - w01 m i (a + 1) 1| ^ 2

/-- Modelled from the spec: the dispersion as the spec describes it, where every
prototype contributes the squared difference of the first two weight coordinates
against its +row neighbor and its +column neighbor only, so that no adjacent
pair of prototypes is counted twice. -/
noncomputable def dispersionSpec (m : List (List Neuron)) : ℝ :=
  ((List.range m.length).map fun i =>
    ((List.range (m.getD i []).length).map fun j =>
      (if i + 1 < m.length then vPair m i j else 0)
      + (if j + 1 < (m.getD i []).length then hPair m i j else 0)).sum).sum

/-- The duplicated row-boundary contribution of `get_map_dispertion`: the pair
between rows 0 and 1 is counted a second time. -/
noncomputable def dispExtraRow (m : List (List Neuron)) : ℝ :=
  if 2 ≤ m.length then
    ((List.range (m.getD 0 []).length).map fun j => vPair m 0 j).sum
  else 0

/-- The duplicated column-boundary contribution of `get_map_dispertion`: the
pair between columns 0 and 1 is counted a second time in every row. -/
noncomputable def dispExtraCol (m : List (List Neuron)) : ℝ :=
  ((List.range m.length).map fun i =>
    if 2 ≤ (m.getD i []).length then hPair m i 0 else 0).sum

/-- Concrete 2-row, 1-column grid used in the dispersion counterexample. -/
def mC4 : List (List Neuron) := [[⟨[0, 0], 0, 0, 0⟩], [⟨[1, 0], 1, 0, 0⟩]]

/-- A grid position `(i, j)`. -/
abbrev GridPos : Type := ℕ × ℕ

/-- One entry of the running nearest-neighbor list: a grid position paired with
its distance to the query point. -/
abbrev ScanEntry : Type := GridPos × ℝ

/-- Row-major scan precedence on grid positions. -/
def posLt (u v : GridPos) : Prop := u.1 < v.1 ∨ (u.1 = v.1 ∧ u.2 < v.2)

/-- Strict priority order on scan entries: smaller distance first, and on exact
distance ties the position scanned earlier in row-major order. -/
def ordE (a b : ScanEntry) : Prop := a.2 < b.2 ∨ (a.2 = b.2 ∧ posLt a.1 b.1)

noncomputable instance : DecidableRel fun (a b : ScanEntry) => a.2 ≤ b.2 :=
  fun a b => Real.decidableLE a.2 b.2

/-- Python's stable `list.sort(key=lambda x: x[1])` on the running list,
modelled by the stable insertion sort on the distance component. -/
noncomputable def sortD (l : List ScanEntry) : List ScanEntry :=
  List.insertionSort (fun a b => a.2 ≤ b.2) l

/-- Distance of prototype `(i, j)` to the query in the first two weight
coordinates: `pow(pow(w0 - q0, 2) + pow(w1 - q1, 2), 0.5)`. -/
noncomputable def queryDist (m : List (List Neuron)) (q : ℝ × ℝ) (i j : ℕ) : ℝ :=
  Real.sqrt ((w01 m i j 0 - q.1) ^ 2 + (w01 m i j 1 - q.2) ^ 2)

/-- The row-major scan of the whole grid with each prototype's distance to the
query point (the `for i ... for j ...` loops of `find_hand_position_v2/v3`). -/
noncomputable def scanList (m : List (List Neuron)) (q : ℝ × ℝ) : List ScanEntry :=
  ((List.range m.length).map fun i =>
    (List.range (m.getD i []).length).map fun j =>
      (((i, j) : GridPos), queryDist m q i j)).flatten

/-- One iteration of the running k-best list of `find_hand_position_v2/v3`:
append and re-sort while fewer than `k` entries are held, otherwise replace the
current worst entry only if the new distance is strictly smaller, then re-sort.
The unreachable `none` arm mirrors an out-of-range Python list index. -/
noncomputable def v2step (k : ℕ) (acc : List ScanEntry) (p : ScanEntry) :
    List ScanEntry :=
  if acc.length < k then sortD (acc ++ [p])
  else match acc[k - 1]? with
    | some w => if p.2 < w.2 then sortD (acc.set (k - 1) p) else acc
    | none => acc

/-- The complete scan of `find_hand_position_v2/v3` over a list of entries. -/
noncomputable def v2scan (k : ℕ) (l : List ScanEntry) : List ScanEntry :=
  l.foldl (v2step k) []

/-- Fallible version of `v2step`: accessing `closest_values[nb_values-1]` on a
running list that is too short raises an IndexError in Python, modelled as
`none`. -/
noncomputable def v2stepF (k : ℕ) (acc : List ScanEntry) (p : ScanEntry) :
    Option (List ScanEntry) :=
  if acc.length < k then some (sortD (acc ++ [p]))
  else match acc[k - 1]? with
    | some w => some (if p.2 < w.2 then sortD (acc.set (k - 1) p) else acc)
    | none => none

/-- Fallible complete scan: a raised IndexError aborts the whole call. -/
noncomputable def v2scanF (k : ℕ) (l : List ScanEntry) : Option (List ScanEntry) :=
  l.foldlM (v2stepF k) []

/-- The scan of `find_hand_position_v1`: running strict minimum, initialized at
the cell `(0, 0)`, returning the selected grid position. -/
noncomputable def find_hand_position_v1_select (m : List (List Neuron))
    (q : ℝ × ℝ) : GridPos :=
  ((scanList m q).foldl (fun best p => if p.2 < best.2 then p else best)
    ((0, 0), queryDist m q 0 0)).1

/-- `SOM.find_hand_position_v1`: the first two and last two weight coordinates
of the closest prototype (strict comparisons keep the first row-major minimum). -/
noncomputable def find_hand_position_v1 (m : List (List Neuron)) (q : ℝ × ℝ) :
    (ℝ × ℝ) × (ℝ × ℝ) :=
  let c := find_hand_position_v1_select m q
  ((w01 m c.1 c.2 0, w01 m c.1 c.2 1), (w01 m c.1 c.2 2, w01 m c.1 c.2 3))

/-- `SOM.find_hand_position_v2`: the k-nearest scan followed by the uniform
average of the output-subspace weights (coordinates 2 and 3) of the selected
prototypes.  Python raises an IndexError when `nb_values` exceeds the length of
the collected list and a ZeroDivisionError at the final division when
`nb_values = 0`; both are modelled as `none`. -/
noncomputable def find_hand_position_v2 (m : List (List Neuron)) (q : ℝ × ℝ)
    (k : ℕ) : Option (List GridPos × (ℝ × ℝ)) :=
  (v2scanF k (scanList m q)).bind fun res =>
    if 1 ≤ k ∧ k ≤ res.length then
      some ((res.take k).map Prod.fst,
        (((res.take k).map fun e => w01 m e.1.1 e.1.2 2).sum / (k : ℝ),
         ((res.take k).map fun e => w01 m e.1.1 e.1.2 3).sum / (k : ℝ)))
    else none

/-- `SOM.find_hand_position_v3`: the same k-nearest scan followed by the
distance-weighted average with per-neighbor weight `(1 - d_i/total) / (k - 1)`.
Python raises an IndexError when `nb_values` exceeds the collected list and,
whenever the weighting loop runs (`nb_values ≥ 1`), a ZeroDivisionError when
the total distance is 0 or when `nb_values = 1`; these are modelled as `none`. -/
noncomputable def find_hand_position_v3 (m : List (List Neuron)) (q : ℝ × ℝ)
    (k : ℕ) : Option (List GridPos × (ℝ × ℝ)) :=
  (v2scanF k (scanList m q)).bind fun res =>
    if k ≤ res.length then
      if 1 ≤ k ∧ (((res.take k).map Prod.snd).sum = 0 ∨ k = 1) then none
      else
        some ((res.take k).map Prod.fst,
          (((res.take k).map fun e => w01 m e.1.1 e.1.2 2
              * ((1 - e.2 / ((res.take k).map Prod.snd).sum) / ((k - 1 : ℕ) : ℝ))).sum,
           ((res.take k).map fun e => w01 m e.1.1 e.1.2 3
              * ((1 - e.2 / ((res.take k).map Prod.snd).sum) / ((k - 1 : ℕ) : ℝ))).sum))
    else none

/-- Sequencing of fallible steps: the Python loops of the `mouvement_*`
generators abort as a whole when one query raises. -/
def optSeq {α : Type} : List (Option α) → Option (List α)
  | [] => some []
  | o :: t => o.bind fun a => (optSeq t).map fun s => a :: s

/-- `SOM.mouvement_v1`: estimates along the straight path, one query at each of
the `nb_steps - 1` interpolation fractions `index/(nb_steps-1)`, plus a final
query exactly at `to_pos`. -/
noncomputable def mouvement_v1 (m : List (List Neuron)) (from_pos to_pos : ℝ × ℝ)
    (nb_steps : ℕ) : List ((ℝ × ℝ) × (ℝ × ℝ)) :=
  ((List.range (nb_steps - 1)).map fun (index : ℕ) =>
    find_hand_position_v1 m
      (from_pos.1 + ((index : ℝ) / ((nb_steps - 1 : ℕ) : ℝ)) * (to_pos.1 - from_pos.1),
       from_pos.2 + ((index : ℝ) / ((nb_steps - 1 : ℕ) : ℝ)) * (to_pos.2 - from_pos.2)))
  ++ [find_hand_position_v1 m (to_pos.1, to_pos.2)]

/-- `SOM.mouvement_v2`: like `mouvement_v1` but querying
`find_hand_position_v2` with `nb_values = 4` at the interpolated points and
`nb_values = 3` at the final point. -/
noncomputable def mouvement_v2 (m : List (List Neuron)) (from_pos to_pos : ℝ × ℝ)
    (nb_steps : ℕ) : Option (List (List GridPos × (ℝ × ℝ))) :=
  optSeq ((((List.range (nb_steps - 1)).map fun (index : ℕ) =>
    find_hand_position_v2 m
      (from_pos.1 + ((index : ℝ) / ((nb_steps - 1 : ℕ) : ℝ)) * (to_pos.1 - from_pos.1),
       from_pos.2 + ((index : ℝ) / ((nb_steps - 1 : ℕ) : ℝ)) * (to_pos.2 - from_pos.2)) 4))
  ++ [find_hand_position_v2 m (to_pos.1, to_pos.2) 3])

/-- `SOM.mouvement_v3`: like `mouvement_v2` but with the distance-weighted
estimator `find_hand_position_v3`, again `nb_values = 4` inside the path and
`nb_values = 3` at the final point. -/
noncomputable def mouvement_v3 (m : List (List Neuron)) (from_pos to_pos : ℝ × ℝ)
    (nb_steps : ℕ) : Option (List (List GridPos × (ℝ × ℝ))) :=
  optSeq ((((List.range (nb_steps - 1)).map fun (index : ℕ) =>
    find_hand_position_v3 m
      (from_pos.1 + ((index : ℝ) / ((nb_steps - 1 : ℕ) : ℝ)) * (to_pos.1 - from_pos.1),
       from_pos.2 + ((index : ℝ) / ((nb_steps - 1 : ℕ) : ℝ)) * (to_pos.2 - from_pos.2)) 4))
  ++ [find_hand_position_v3 m (to_pos.1, to_pos.2) 3])

/-- Concrete 2-by-1 grid whose two prototypes coincide with the query `(0,0)`
in the search subspace: both scan distances are 0. -/
def mC7 : List (List Neuron) :=
  [[⟨[0, 0, 5, 7], 0, 0, 0⟩], [⟨[0, 0, 9, 11], 1, 0, 0⟩]]

/-- Concrete 2-by-1 grid whose two prototypes both sit at distance 1 from the
query `(0,0)` in the search subspace. -/
def mC7b : List (List Neuron) :=
  [[⟨[0, 1, 5, 7], 0, 0, 0⟩], [⟨[0, -1, 9, 11], 1, 0, 0⟩]]

/-- Concrete 4-by-1 grid with scan distances 0, 1, 2, 3 from the query `(0,0)`
and output-subspace weights that separate the k = 3 and k = 4 averages. -/
def mC10 : List (List Neuron) :=
  [[⟨[0, 0, 0, 0], 0, 0, 0⟩], [⟨[1, 0, 0, 0], 1, 0, 0⟩],
   [⟨[2, 0, 0, 0], 2, 0, 0⟩], [⟨[3, 0, 0, 12], 3, 0, 0⟩]]

/-- Invariant of the running k-best list of `find_hand_position_v2/v3` after the
entries in `seen` have been scanned: the list holds `min k |seen|` entries, is
strictly sorted by distance with earlier-scanned entries ahead on ties, all its
entries come from `seen`, and it beats every scanned entry it does not hold. -/
structure ScanInv (k : ℕ) (seen acc : List ScanEntry) : Prop where
  len : acc.length = min k seen.length
  sorted : acc.Pairwise ordE
  mem : ∀ a ∈ acc, a ∈ seen
  dom : ∀ b ∈ seen, b ∉ acc → ∀ a ∈ acc, ordE a b

/-- Helper: getD of a mapped list at an in-range index. -/
theorem getD_map_lt {α β : Type} (f : α → β) (l : List α) (i : ℕ) (d : β)
    (h : i < l.length) : (l.map f).getD i d = f l[i] := by
  rw [List.getD_eq_getElem (l.map f) d (by simpa using h)]
  simp

/-- Helper: a cell of a cell-wise mapped grid. -/
theorem cellOf_map (f : Neuron → Neuron) (m : List (List Neuron)) (i j : ℕ)
    (hi : i < m.length) (hj : j < (m.getD i []).length) :
    cellOf (m.map fun row => row.map f) i j = f (cellOf m i j) := by
  rw [List.getD_eq_getElem m [] hi] at hj
  unfold cellOf
  rw [getD_map_lt (fun row => row.map f) m i [] hi]
  rw [getD_map_lt f _ j default hj]
  rw [List.getD_eq_getElem m [] hi, List.getD_eq_getElem _ default hj]

/-- Helper: unfolding equation of argminFlat on a list with two or more items. -/
theorem argminFlat_cons2 (a b : ℝ) (t : List ℝ) :
    argminFlat (a :: b :: t)
      = if a ≤ (b :: t).getD (argminFlat (b :: t)) 0 then 0
        else argminFlat (b :: t) + 1 := rfl

/-- Helper: argminFlat of a nonempty list is in range. -/
theorem argminFlat_lt : ∀ (l : List ℝ), l ≠ [] → argminFlat l < l.length
  | [], h => absurd rfl h
  | [_], _ => by simp [argminFlat]
  | a :: b :: t, _ => by
    by_cases hc : a ≤ (b :: t).getD (argminFlat (b :: t)) 0
    · rw [argminFlat_cons2, if_pos hc]
      simp
    · have ih := argminFlat_lt (b :: t) (by simp)
      rw [argminFlat_cons2, if_neg hc]
      simp only [List.length_cons] at ih ⊢
      omega

/-- Helper: the value at argminFlat is a minimum of the list. -/
theorem argminFlat_le : ∀ (l : List ℝ) (j : ℕ), j < l.length →
    l.getD (argminFlat l) 0 ≤ l.getD j 0
  | [], j, h => by simp at h
  | [_], j, h => by
    have hj : j = 0 := by simpa using h
    subst hj
    exact le_refl _
  | a :: b :: t, j, h => by
    by_cases hc : a ≤ (b :: t).getD (argminFlat (b :: t)) 0
    · rw [argminFlat_cons2, if_pos hc, List.getD_cons_zero]
      match j with
      | 0 => rw [List.getD_cons_zero]
      | j + 1 =>
        have hj : j < (b :: t).length := by simpa using h
        rw [List.getD_cons_succ]
        exact le_trans hc (argminFlat_le (b :: t) j hj)
    · rw [argminFlat_cons2, if_neg hc, List.getD_cons_succ]
      match j with
      | 0 =>
        rw [List.getD_cons_zero]
        exact le_of_lt (lt_of_not_le hc)
      | j + 1 =>
        rw [List.getD_cons_succ]
        exact argminFlat_le (b :: t) j (by simpa using h)

/-- Helper: argminFlat is the first occurrence of the minimum. -/
theorem argminFlat_first : ∀ (l : List ℝ) (j : ℕ), j < argminFlat l →
    l.getD (argminFlat l) 0 < l.getD j 0
  | [], j, h => by simp [argminFlat] at h
  | [_], j, h => by simp [argminFlat] at h
  | a :: b :: t, j, h => by
    by_cases hc : a ≤ (b :: t).getD (argminFlat (b :: t)) 0
    · rw [argminFlat_cons2, if_pos hc] at h
      exact absurd h (Nat.not_lt_zero j)
    · rw [argminFlat_cons2, if_neg hc] at h ⊢
      rw [List.getD_cons_succ]
      match j with
      | 0 =>
        rw [List.getD_cons_zero]
        exact lt_of_not_le hc
      | j + 1 =>
        rw [List.getD_cons_succ]
        exact argminFlat_first (b :: t) j (by omega)

/-- Helper: getD on the left part of an append. -/
theorem getD_append_lt {α : Type} (l1 l2 : List α) (n : ℕ) (d : α)
    (h : n < l1.length) : (l1 ++ l2).getD n d = l1.getD n d := by
  rw [List.getD_eq_getElem _ d (by simp; omega), List.getD_eq_getElem _ d h]
  exact List.getElem_append_left h

/-- Helper: getD past the left part of an append. -/
theorem getD_append_add {α : Type} (l1 l2 : List α) (n : ℕ) (d : α) :
    (l1 ++ l2).getD (l1.length + n) d = l2.getD n d := by
  rw [List.getD_append_right]
  · simp
  · omega

/-- Helper: length of the flattening of a rectangular list of lists. -/
theorem flatten_length_rect {α : Type} (A : List (List α)) (C : ℕ)
    (hc : ∀ row ∈ A, row.length = C) : A.flatten.length = A.length * C := by
  induction A with
  | nil => simp
  | cons r t ih =>
    have hr := hc r (by simp)
    have ht : ∀ row ∈ t, row.length = C := fun row hrow => hc row (by simp [hrow])
    simp only [List.flatten_cons, List.length_append, List.length_cons, hr, ih ht]
    ring

/-- Helper: row-major indexing into the flattening of a rectangular list. -/
theorem flatten_getD_rect {α : Type} (A : List (List α)) (C : ℕ) (dflt : α)
    (hc : ∀ row ∈ A, row.length = C) :
    ∀ (i j : ℕ), i < A.length → j < C →
      A.flatten.getD (i * C + j) dflt = (A.getD i []).getD j dflt := by
  induction A with
  | nil => intro i j hi _; simp at hi
  | cons r t ih =>
    intro i j hi hj
    have hr := hc r (by simp)
    have ht : ∀ row ∈ t, row.length = C := fun row hrow => hc row (by simp [hrow])
    match i with
    | 0 =>
      simp only [List.flatten_cons, Nat.zero_mul, Nat.zero_add, List.getD_cons_zero]
      exact getD_append_lt r t.flatten j dflt (by rw [hr]; exact hj)
    | i + 1 =>
      have hidx : (i + 1) * C + j = r.length + (i * C + j) := by rw [hr]; ring
      simp only [List.flatten_cons, hidx, List.getD_cons_succ]
      rw [getD_append_add]
      exact ih ht i j (by simpa using hi) hj

/-- Helper: row-major flat index bound for a rectangular grid. -/
theorem index_lt_total (R C i j : ℕ) (hi : i < R) (hj : j < C) : i * C + j < R * C := by
  calc i * C + j < i * C + C := by omega
    _ = (i + 1) * C := by ring
    _ ≤ R * C := Nat.mul_le_mul_right C hi

/-- Helper: row-major precedence implies a smaller flat index. -/
theorem lex_index_lt (C i j q r : ℕ) (hj : j < C) (hr : r < C)
    (h : i < q ∨ (i = q ∧ j < r)) : i * C + j < q * C + r := by
  rcases h with h | ⟨he, hjr⟩
  · calc i * C + j < i * C + C := by omega
      _ = (i + 1) * C := by ring
      _ ≤ q * C := Nat.mul_le_mul_right C h
      _ ≤ q * C + r := Nat.le_add_right _ _
  · subst he
    exact Nat.add_lt_add_left hjr _

/-- Helper: `Neuron.compute` leaves the weights unchanged. -/
theorem Neuron.compute_weights (n : Neuron) (x : List ℝ) :
    (n.compute x).weights = n.weights := rfl

/-- Helper: `Neuron.compute` leaves the grid position unchanged. -/
theorem Neuron.compute_pos (n : Neuron) (x : List ℝ) :
    (n.compute x).posx = n.posx ∧ (n.compute x).posy = n.posy := ⟨rfl, rfl⟩

/-- Helper: `Neuron.learn` leaves the grid position unchanged. -/
theorem Neuron.learn_pos (n : Neuron) (eta sigma : ℝ) (a b : ℤ) (x : List ℝ) :
    (n.learn eta sigma a b x).posx = n.posx ∧ (n.learn eta sigma a b x).posy = n.posy :=
  ⟨rfl, rfl⟩

/-- Helper: the Gaussian neighborhood factor of the winner itself is 1. -/
theorem kern_self (sigma : ℝ) (p q : ℤ) :
    Real.exp ((-(((|p - p| + |q - q| : ℤ) : ℝ) ^ 2)) / (2 * sigma * sigma)) = 1 := by
  simp

/-- Helper: difference between the input and the updated weights is the scaled
difference between the input and the old weights. -/
theorem listSub_learn (c : ℝ) : ∀ (w x : List ℝ),
    listSub x (List.zipWith (fun wi xi => wi + c * (xi - wi)) w x)
      = (listSub x w).map fun t => (1 - c) * t
  | [], x => by simp [listSub]
  | w :: ws, [] => by simp [listSub]
  | w :: ws, xi :: xs => by
    have ih := listSub_learn c ws xs
    simp only [listSub, List.zipWith_cons_cons, List.map_cons] at ih ⊢
    rw [ih]
    congr 1
    ring

/-- Helper: Euclidean norm of a scaled vector. -/
theorem euclidNorm_map_mul (c : ℝ) (v : List ℝ) :
    euclidNorm (v.map fun t => c * t) = |c| * euclidNorm v := by
  unfold euclidNorm
  rw [List.map_map]
  have hcomp : ((fun t => t ^ 2) ∘ fun t => c * t) = fun t : ℝ => c ^ 2 * t ^ 2 := by
    funext t; simp [mul_pow]
  rw [hcomp, List.sum_map_mul_left, Real.sqrt_mul (sq_nonneg c), Real.sqrt_sq_eq_abs]

/-- Helper: a sum of nonnegative reals with one positive member is positive. -/
theorem sum_pos_of_mem : ∀ (l : List ℝ), (∀ b ∈ l, 0 ≤ b) → ∀ a ∈ l, 0 < a → 0 < l.sum
  | [], _, a, ha, _ => by simp at ha
  | b :: t, h0, a, ha, hpos => by
    rcases List.mem_cons.mp ha with he | ht
    · have ht0 : 0 ≤ t.sum := List.sum_nonneg fun z hz => h0 z (List.mem_cons_of_mem b hz)
      rw [List.sum_cons, ← he]
      linarith
    · have hb : 0 ≤ b := h0 b (List.mem_cons_self b t)
      have hts := sum_pos_of_mem t (fun z hz => h0 z (List.mem_cons_of_mem b hz)) a ht hpos
      rw [List.sum_cons]
      linarith

/-- Helper: the Euclidean distance between two distinct equal-length vectors
is positive. -/
theorem euclidNorm_sub_pos (x w : List ℝ) (hlen : x.length = w.length) (hne : w ≠ x) :
    0 < euclidNorm (listSub x w) := by
  have hzl : (listSub x w).length = x.length := by
    simp [listSub, List.length_zipWith, hlen]
  have hex : ∃ i : ℕ, ∃ h1 : i < x.length,
      x.get ⟨i, h1⟩ ≠ w.get ⟨i, by rw [← hlen]; exact h1⟩ := by
    by_contra hall
    push_neg at hall
    exact hne (List.ext_get hlen.symm fun i h1 h2 => (hall i h2).symm)
  obtain ⟨i, hix, hneq⟩ := hex
  have hiw : i < w.length := by rw [← hlen]; exact hix
  have hisub : i < (listSub x w).length := by rw [hzl]; exact hix
  have hiv : i < ((listSub x w).map fun t => t ^ 2).length := by
    rw [List.length_map]; exact hisub
  have hval : ((listSub x w).map fun t => t ^ 2).get ⟨i, hiv⟩
      = (x.get ⟨i, hix⟩ - w.get ⟨i, hiw⟩) ^ 2 := by
    simp [listSub]
  have hsubne : x.get ⟨i, hix⟩ - w.get ⟨i, hiw⟩ ≠ 0 := sub_ne_zero.mpr hneq
  have hposval : 0 < ((listSub x w).map fun t => t ^ 2).get ⟨i, hiv⟩ := by
    rw [hval]
    exact lt_of_le_of_ne (sq_nonneg _) (Ne.symm (pow_ne_zero 2 hsubne))
  unfold euclidNorm
  apply Real.sqrt_pos.mpr
  exact sum_pos_of_mem _
    (fun b hb => by
      obtain ⟨t, _, rfl⟩ := List.mem_map.mp hb
      exact sq_nonneg t)
    _ (List.get_mem _ i hiv) hposval

/-- Helper: the computed activity grid and cells of `SOM.compute`. -/
theorem compute_act_eq (s : SOM) (x : List ℝ) (r c : ℕ)
    (hr : r < s.map.length) (hc : c < (s.map.getD r []).length) :
    (s.compute x).act r c = euclidNorm (listSub x (s.cell r c).weights)
      ∧ (s.compute x).act r c = ((s.compute x).cell r c).y := by
  have hcell : (s.compute x).cell r c = (s.cell r c).compute x := by
    show cellOf (s.map.map fun row => row.map fun n => n.compute x) r c = _
    exact cellOf_map (fun n => n.compute x) s.map r c hr hc
  rw [List.getD_eq_getElem s.map [] hr] at hc
  have hr' : r < (s.map.map fun row => row.map fun n => n.compute x).length := by
    simpa using hr
  have hc' : c < ((s.map.map fun (row : List Neuron) =>
      row.map fun n => n.compute x)[r]).length := by
    simpa using hc
  have hact : (s.compute x).act r c = ((s.compute x).cell r c).y := by
    show ((((s.map.map fun row => row.map fun n => n.compute x).map fun row =>
        row.map fun n => n.y).getD r []).getD c 0) = _
    rw [getD_map_lt (fun row => row.map fun n => n.y) _ r [] hr']
    rw [getD_map_lt (fun n => n.y) _ c 0 hc']
    show _ = (cellOf (s.map.map fun row => row.map fun n => n.compute x) r c).y
    unfold cellOf
    rw [List.getD_eq_getElem _ [] hr', List.getD_eq_getElem _ default hc']
  refine ⟨?_, hact⟩
  rw [hact, hcell]
  rfl

/-- Helper: dimensions of a map after `SOM.compute`. -/
theorem compute_dims (s : SOM) (x : List ℝ) :
    (s.compute x).map.length = s.map.length
    ∧ (s.compute x).activitymap.length = s.map.length
    ∧ ∀ C : ℕ, (∀ row ∈ s.map, row.length = C) →
        (∀ row ∈ (s.compute x).map, row.length = C)
        ∧ (∀ row ∈ (s.compute x).activitymap, row.length = C) := by
  refine ⟨by simp [SOM.compute], by simp [SOM.compute], ?_⟩
  intro C hC
  constructor
  · intro row hrow
    obtain ⟨orig, ho, rfl⟩ := List.mem_map.mp hrow
    simpa using hC orig ho
  · intro row hrow
    obtain ⟨mid, hm, rfl⟩ := List.mem_map.mp hrow
    obtain ⟨orig, ho, rfl⟩ := List.mem_map.mp hm
    simpa using hC orig ho

/-- Helper: the first row-major occurrence of the minimum of a rectangular grid,
expressed through `argminFlat` of the flattened grid. -/
theorem argmin_grid_spec (A : List (List ℝ)) (R C : ℕ) (hR : 0 < R) (hC : 0 < C)
    (hAlen : A.length = R) (hArows : ∀ row ∈ A, row.length = C) :
    argminFlat A.flatten / C < R ∧ argminFlat A.flatten % C < C
    ∧ (∀ i j, i < R → j < C →
        (A.getD (argminFlat A.flatten / C) []).getD (argminFlat A.flatten % C) 0
          ≤ (A.getD i []).getD j 0)
    ∧ ∀ i j, i < R → j < C →
        (i < argminFlat A.flatten / C
          ∨ (i = argminFlat A.flatten / C ∧ j < argminFlat A.flatten % C)) →
        (A.getD (argminFlat A.flatten / C) []).getD (argminFlat A.flatten % C) 0
          < (A.getD i []).getD j 0 := by
  have hflatlen : A.flatten.length = R * C := by
    rw [flatten_length_rect A C hArows, hAlen]
  have hfne : A.flatten ≠ [] := by
    intro h
    rw [h] at hflatlen
    have := Nat.mul_pos hR hC
    simp at hflatlen
    omega
  have hidx : argminFlat A.flatten < R * C := by
    rw [← hflatlen]
    exact argminFlat_lt _ hfne
  have hb1 : argminFlat A.flatten / C < R := (Nat.div_lt_iff_lt_mul hC).mpr hidx
  have hb2 : argminFlat A.flatten % C < C := Nat.mod_lt _ hC
  have hget : ∀ i j, i < R → j < C →
      (A.getD i []).getD j 0 = A.flatten.getD (i * C + j) 0 := fun i j hi hj =>
    (flatten_getD_rect A C 0 hArows i j (by rw [hAlen]; exact hi) hj).symm
  have hbidx : argminFlat A.flatten / C * C + argminFlat A.flatten % C
      = argminFlat A.flatten := by
    rw [mul_comm]
    exact Nat.div_add_mod _ C
  refine ⟨hb1, hb2, ?_, ?_⟩
  · intro i j hi hj
    rw [hget _ _ hb1 hb2, hget _ _ hi hj, hbidx]
    exact argminFlat_le A.flatten (i * C + j) (by rw [hflatlen]; exact index_lt_total R C i j hi hj)
  · intro i j hi hj hlex
    rw [hget _ _ hb1 hb2, hget _ _ hi hj, hbidx]
    exact argminFlat_first A.flatten (i * C + j) (by rw [← hbidx]; exact lex_index_lt C i j _ _ hj hb2 hlex)

/-- Helper: the weight update of a neuron sitting exactly at the winner position. -/
theorem learn_weights_winner (n : Neuron) (eta sigma : ℝ) (a b : ℤ) (x : List ℝ)
    (hpx : n.posx = a) (hpy : n.posy = b) :
    (n.learn eta sigma a b x).weights
      = List.zipWith (fun wi xi => wi + eta * (xi - wi)) n.weights x := by
  unfold Neuron.learn
  dsimp only
  rw [hpx, hpy, kern_self]
  simp only [mul_one]

/-- C3 (amended): one training step (`SOM.learn` after `SOM.compute`) leaves
every prototype's grid position unchanged; the winner is the prototype of
minimum current activation with ties broken by row-major scan order; and the
winner's weight vector moves strictly closer to `x` in Euclidean distance
provided its weights differ from `x` (when they already equal `x` the distance
is zero both before and after, so the movement cannot be strict). -/
theorem C3_trainstep_amended (s : SOM) (x : List ℝ) (eta sigma : ℝ) (d : ℕ)
    (hwf : s.WF d) (hx : x.length = d) (heta0 : 0 < eta) (heta1 : eta ≤ 1)
    (hsigma : 0 < sigma) (hR : 0 < s.gridsize.1) (hC : 0 < s.gridsize.2) :
    (∀ i j, i < s.gridsize.1 → j < s.gridsize.2 →
        (((s.compute x).learn eta sigma x).cell i j).posx = (s.cell i j).posx
          ∧ (((s.compute x).learn eta sigma x).cell i j).posy = (s.cell i j).posy)
    ∧ ((s.compute x).bmu).1 < s.gridsize.1
    ∧ ((s.compute x).bmu).2 < s.gridsize.2
    ∧ (∀ i j, i < s.gridsize.1 → j < s.gridsize.2 →
        (s.compute x).act ((s.compute x).bmu).1 ((s.compute x).bmu).2
          ≤ (s.compute x).act i j)
    ∧ (∀ i j, i < s.gridsize.1 → j < s.gridsize.2 →
        (i < ((s.compute x).bmu).1 ∨ (i = ((s.compute x).bmu).1
          ∧ j < ((s.compute x).bmu).2)) →
        (s.compute x).act ((s.compute x).bmu).1 ((s.compute x).bmu).2
          < (s.compute x).act i j)
    ∧ ((((s.compute x).cell ((s.compute x).bmu).1 ((s.compute x).bmu).2).weights ≠ x →
        euclidNorm (listSub x ((((s.compute x).learn eta sigma x).cell
            ((s.compute x).bmu).1 ((s.compute x).bmu).2).weights))
          < euclidNorm (listSub x (((s.compute x).cell
            ((s.compute x).bmu).1 ((s.compute x).bmu).2).weights)))) := by
  obtain ⟨hmlen, hrows, hpos⟩ := hwf
  have hrowlen : ∀ i, i < s.map.length → (s.map.getD i []).length = s.gridsize.2 := by
    intro i hi
    rw [List.getD_eq_getElem s.map [] hi]
    exact hrows _ (List.getElem_mem hi)
  have hs1len : (s.compute x).map.length = s.map.length := (compute_dims s x).1
  have hs1rows : ∀ row ∈ (s.compute x).map, row.length = s.gridsize.2 :=
    ((compute_dims s x).2.2 s.gridsize.2 hrows).1
  have hs1rowlen : ∀ i, i < (s.compute x).map.length →
      ((s.compute x).map.getD i []).length = s.gridsize.2 := by
    intro i hi
    rw [List.getD_eq_getElem _ [] hi]
    exact hs1rows _ (List.getElem_mem hi)
  have hcell1 : ∀ i j, i < s.gridsize.1 → j < s.gridsize.2 →
      (s.compute x).cell i j = (s.cell i j).compute x := by
    intro i j hi hj
    exact cellOf_map (fun n => n.compute x) s.map i j (by rw [hmlen]; exact hi)
      (by rw [hrowlen i (by rw [hmlen]; exact hi)]; exact hj)
  have hcell2 : ∀ i j, i < s.gridsize.1 → j < s.gridsize.2 →
      ((s.compute x).learn eta sigma x).cell i j
        = ((s.compute x).cell i j).learn eta sigma
            ((((s.compute x).bmu).1 : ℕ) : ℤ) ((((s.compute x).bmu).2 : ℕ) : ℤ) x := by
    intro i j hi hj
    exact cellOf_map _ (s.compute x).map i j (by rw [hs1len, hmlen]; exact hi)
      (by rw [hs1rowlen i (by rw [hs1len, hmlen]; exact hi)]; exact hj)
  have hAlen : (s.compute x).activitymap.length = s.gridsize.1 := by
    rw [(compute_dims s x).2.1, hmlen]
  have hArows : ∀ row ∈ (s.compute x).activitymap, row.length = s.gridsize.2 :=
    ((compute_dims s x).2.2 s.gridsize.2 hrows).2
  have hspec := argmin_grid_spec (s.compute x).activitymap s.gridsize.1 s.gridsize.2
    hR hC hAlen hArows
  obtain ⟨hb1, hb2, hmin, hfirst⟩ := hspec
  refine ⟨?_, hb1, hb2, hmin, hfirst, ?_⟩
  · intro i j hi hj
    rw [hcell2 i j hi hj, hcell1 i j hi hj]
    exact ⟨rfl, rfl⟩
  · intro hne
    have hwpos := hpos ((s.compute x).bmu).1 ((s.compute x).bmu).2 hb1 hb2
    have hwx : x.length = (s.cell ((s.compute x).bmu).1 ((s.compute x).bmu).2).weights.length := by
      rw [hwpos.2.2, hx]
    have hc1 := hcell1 ((s.compute x).bmu).1 ((s.compute x).bmu).2 hb1 hb2
    have hweq : ((s.compute x).cell ((s.compute x).bmu).1 ((s.compute x).bmu).2).weights
        = (s.cell ((s.compute x).bmu).1 ((s.compute x).bmu).2).weights := by
      rw [hc1]
      exact Neuron.compute_weights _ x
    have hlearnw : (((s.compute x).learn eta sigma x).cell
        ((s.compute x).bmu).1 ((s.compute x).bmu).2).weights
        = List.zipWith (fun wi xi => wi + eta * (xi - wi))
            ((s.compute x).cell ((s.compute x).bmu).1 ((s.compute x).bmu).2).weights x := by
      rw [hcell2 ((s.compute x).bmu).1 ((s.compute x).bmu).2 hb1 hb2]
      apply learn_weights_winner
      · rw [hc1]
        exact hwpos.1
      · rw [hc1]
        exact hwpos.2.1
    rw [hlearnw, listSub_learn eta, euclidNorm_map_mul,
      abs_of_nonneg (by linarith : (0 : ℝ) ≤ 1 - eta)]
    have hD : 0 < euclidNorm (listSub x
        (((s.compute x).cell ((s.compute x).bmu).1 ((s.compute x).bmu).2).weights)) := by
      apply euclidNorm_sub_pos
      · rw [hweq]
        exact hwx
      · exact hne
    calc (1 - eta) * euclidNorm (listSub x
          (((s.compute x).cell ((s.compute x).bmu).1 ((s.compute x).bmu).2).weights))
        < 1 * euclidNorm (listSub x
          (((s.compute x).cell ((s.compute x).bmu).1 ((s.compute x).bmu).2).weights)) :=
          mul_lt_mul_of_pos_right (by linarith) hD
      _ = _ := one_mul _

/-- Counterexample to C3 as stated: on the one-cell map whose single weight
vector already equals the input `x = [0, 0]`, one training step with
`eta = 1 ∈ (0,1]` and `sigma = 1 > 0` does not move the winner strictly closer
to `x`: the distance is 0 both before and after the step. -/
theorem C3_trainstep_counterexample :
    ¬ (euclidNorm (listSub [0, 0] ((((som0.compute [0, 0]).learn 1 1 [0, 0]).cell
          ((som0.compute [0, 0]).bmu).1 ((som0.compute [0, 0]).bmu).2).weights))
        < euclidNorm (listSub [0, 0] (((som0.compute [0, 0]).cell
          ((som0.compute [0, 0]).bmu).1 ((som0.compute [0, 0]).bmu).2).weights))) := by
  have hb : (som0.compute [0, 0]).bmu = (0, 0) := by
    simp [som0, SOM.compute, SOM.bmu, Neuron.compute, argminFlat]
  rw [hb]
  have hc1 : ((som0.compute [0, 0]).cell 0 0).weights = [0, 0] := by
    simp [som0, SOM.compute, SOM.cell, cellOf, Neuron.compute]
  have hc2 : (((som0.compute [0, 0]).learn 1 1 [0, 0]).cell 0 0).weights = [0, 0] := by
    simp [som0, SOM.compute, SOM.learn, SOM.cell, cellOf, Neuron.compute, Neuron.learn]
  rw [hc1, hc2]
  have hz : euclidNorm (listSub [0, 0] [0, 0]) = 0 := by
    simp [listSub, euclidNorm]
  rw [hz]
  exact lt_irrefl 0

/-- Witness for the amended C3 on the concrete one-cell map with input `[1, 1]`. -/
theorem C3_trainstep_amended_witness :
    som0.WF 2 ∧ [(1 : ℝ), 1].length = 2 ∧ ((0 : ℝ) < 1 ∧ (1 : ℝ) ≤ 1) ∧ (0 : ℝ) < 1 ∧
      (0 < som0.gridsize.1 ∧ 0 < som0.gridsize.2) ∧
      ((∀ i j, i < som0.gridsize.1 → j < som0.gridsize.2 →
          (((som0.compute [1, 1]).learn 1 1 [1, 1]).cell i j).posx = (som0.cell i j).posx
            ∧ (((som0.compute [1, 1]).learn 1 1 [1, 1]).cell i j).posy = (som0.cell i j).posy)
      ∧ ((som0.compute [1, 1]).bmu).1 < som0.gridsize.1
      ∧ ((som0.compute [1, 1]).bmu).2 < som0.gridsize.2
      ∧ (∀ i j, i < som0.gridsize.1 → j < som0.gridsize.2 →
          (som0.compute [1, 1]).act ((som0.compute [1, 1]).bmu).1 ((som0.compute [1, 1]).bmu).2
            ≤ (som0.compute [1, 1]).act i j)
      ∧ (∀ i j, i < som0.gridsize.1 → j < som0.gridsize.2 →
          (i < ((som0.compute [1, 1]).bmu).1 ∨ (i = ((som0.compute [1, 1]).bmu).1
            ∧ j < ((som0.compute [1, 1]).bmu).2)) →
          (som0.compute [1, 1]).act ((som0.compute [1, 1]).bmu).1 ((som0.compute [1, 1]).bmu).2
            < (som0.compute [1, 1]).act i j)
      ∧ ((((som0.compute [1, 1]).cell ((som0.compute [1, 1]).bmu).1
            ((som0.compute [1, 1]).bmu).2).weights ≠ [1, 1] →
          euclidNorm (listSub [1, 1] ((((som0.compute [1, 1]).learn 1 1 [1, 1]).cell
              ((som0.compute [1, 1]).bmu).1 ((som0.compute [1, 1]).bmu).2).weights))
            < euclidNorm (listSub [1, 1] (((som0.compute [1, 1]).cell
              ((som0.compute [1, 1]).bmu).1 ((som0.compute [1, 1]).bmu).2).weights))))) := by
  have hwf : som0.WF 2 := by
    refine ⟨rfl, ?_, ?_⟩
    · intro row hrow
      have hre : row = [⟨[0, 0], 0, 0, 0⟩] := by simpa [som0] using hrow
      rw [hre]
      rfl
    · intro i j hi hj
      have hi0 : i = 0 := by simpa [som0] using hi
      have hj0 : j = 0 := by simpa [som0] using hj
      subst hi0
      subst hj0
      refine ⟨rfl, rfl, rfl⟩
  exact ⟨hwf, rfl, ⟨by norm_num, le_refl 1⟩, by norm_num, ⟨Nat.one_pos, Nat.one_pos⟩,
    C3_trainstep_amended som0 [1, 1] 1 1 2 hwf rfl (by norm_num) (le_refl 1)
      (by norm_num) Nat.one_pos Nat.one_pos⟩

/-- C1: `Neuron.learn` adds `eta * exp(-(|px-bx| + |py-by|)^2 / (2*sigma^2)) * (x - w)`
to the weight vector: the Gaussian neighborhood kernel is taken over the squared
Manhattan grid distance between the neuron's position and the winner's position
(not over any weight-space distance). -/
theorem C1_learn_gaussian_over_manhattan (n : Neuron) (eta sigma : ℝ)
    (posxbmu posybmu : ℤ) (x : List ℝ) (i : ℕ) (hsigma : 0 < sigma)
    (hlen : x.length = n.weights.length) (hi : i < n.weights.length) :
    (n.learn eta sigma posxbmu posybmu x).weights.getD i 0
        = n.weights.getD i 0
          + eta * Real.exp (-((|n.posx - posxbmu| + |n.posy - posybmu| : ℤ) : ℝ) ^ 2
              / (2 * sigma ^ 2)) * (x.getD i 0 - n.weights.getD i 0)
      ∧ (n.learn eta sigma posxbmu posybmu x).weights.length = n.weights.length := by
  unfold Neuron.learn
  dsimp only
  have hix : i < x.length := by rw [hlen]; exact hi
  have hz : i < (List.zipWith (fun w xi => w + eta *
      Real.exp ((-(((|n.posx - posxbmu| + |n.posy - posybmu| : ℤ) : ℝ) ^ 2))
        / (2 * sigma * sigma)) * (xi - w)) n.weights x).length := by
    rw [List.length_zipWith, hlen, min_self]; exact hi
  constructor
  · rw [List.getD_eq_getElem _ 0 hz, List.getD_eq_getElem _ 0 hi,
      List.getD_eq_getElem _ 0 hix]
    rw [List.getElem_zipWith]
    ring_nf
  · rw [List.length_zipWith, hlen, min_self]

/-- Witness for C1 at a concrete neuron, input and parameters. -/
theorem C1_learn_gaussian_over_manhattan_witness :
    (0 : ℝ) < 1 ∧ [(1 : ℝ)].length = (Neuron.mk [0] 0 0 0).weights.length ∧
      0 < (Neuron.mk [0] 0 0 0).weights.length ∧
      (((Neuron.mk [0] 0 0 0).learn 1 1 0 0 [1]).weights.getD 0 0
          = (Neuron.mk [0] 0 0 0).weights.getD 0 0
            + 1 * Real.exp (-((|(Neuron.mk [0] 0 0 0).posx - 0|
                  + |(Neuron.mk [0] 0 0 0).posy - 0| : ℤ) : ℝ) ^ 2 / (2 * 1 ^ 2))
              * ([(1 : ℝ)].getD 0 0 - (Neuron.mk [0] 0 0 0).weights.getD 0 0)
        ∧ ((Neuron.mk [0] 0 0 0).learn 1 1 0 0 [1]).weights.length
            = (Neuron.mk [0] 0 0 0).weights.length) :=
  ⟨by norm_num, rfl, by norm_num,
    C1_learn_gaussian_over_manhattan (Neuron.mk [0] 0 0 0) 1 1 0 0 [1] 0
      (by norm_num) rfl (by norm_num)⟩

/-- C2: after `SOM.compute x`, the activity grid at every in-range position
equals the Euclidean distance between `x` and that prototype's weight vector,
and that value is also the prototype's stored output `y`. -/
theorem C2_compute_euclidean_activations (s : SOM) (x : List ℝ) (r c : ℕ)
    (hr : r < s.map.length) (hc : c < (s.map.getD r []).length)
    (hdim : x.length = (s.cell r c).weights.length) :
    (s.compute x).act r c = euclidNorm (listSub x (s.cell r c).weights)
      ∧ (s.compute x).act r c = ((s.compute x).cell r c).y :=
  compute_act_eq s x r c hr hc

/-- Witness for C2 on a concrete one-cell map. -/
theorem C2_compute_euclidean_activations_witness :
    (0 < (SOM.mk (1, 1) [[Neuron.mk [0, 0] 0 0 0]] [[0]]).map.length) ∧
      (0 < ((SOM.mk (1, 1) [[Neuron.mk [0, 0] 0 0 0]] [[0]]).map.getD 0 []).length) ∧
      [(1 : ℝ), 1].length
          = ((SOM.mk (1, 1) [[Neuron.mk [0, 0] 0 0 0]] [[0]]).cell 0 0).weights.length ∧
      (((SOM.mk (1, 1) [[Neuron.mk [0, 0] 0 0 0]] [[0]]).compute [1, 1]).act 0 0
          = euclidNorm (listSub [1, 1]
              ((SOM.mk (1, 1) [[Neuron.mk [0, 0] 0 0 0]] [[0]]).cell 0 0).weights)
        ∧ ((SOM.mk (1, 1) [[Neuron.mk [0, 0] 0 0 0]] [[0]]).compute [1, 1]).act 0 0
            = (((SOM.mk (1, 1) [[Neuron.mk [0, 0] 0 0 0]] [[0]]).compute [1, 1]).cell 0 0).y) :=
  ⟨by norm_num, by norm_num [SOM.mk], by simp [SOM.cell, cellOf],
    C2_compute_euclidean_activations (SOM.mk (1, 1) [[Neuron.mk [0, 0] 0 0 0]] [[0]])
      [1, 1] 0 0 (by norm_num) (by norm_num [SOM.mk]) (by simp [SOM.cell, cellOf])⟩

/-- Helper: list-range sums as Finset sums. -/
theorem range_map_sum (n : ℕ) (f : ℕ → ℝ) :
    ((List.range n).map f).sum = ∑ i in Finset.range n, f i := by
  induction n with
  | zero => simp
  | succ n ih =>
    rw [List.range_succ, List.map_append, List.sum_append, Finset.sum_range_succ, ih]
    simp

/-- Helper: the boundary-asymmetric neighbor scan of the dispersion code, as a
sum over one grid line: it equals the one-directional pair sum plus one extra
copy of the pair between indices 0 and 1 whenever the line has two items. -/
theorem chain_sum (C : ℕ) (f : ℕ → ℝ) :
    ∑ j in Finset.range C, (if j ≠ 0 then f (j - 1) else if j ≠ C - 1 then f j else 0)
      = (∑ j in Finset.range C, if j + 1 < C then f j else 0)
        + (if 2 ≤ C then f 0 else 0) := by
  match C with
  | 0 => simp
  | c + 1 =>
    have hL : ∑ j in Finset.range (c + 1),
        (if j ≠ 0 then f (j - 1) else if j ≠ c + 1 - 1 then f j else 0)
        = (∑ j in Finset.range c, f j) + (if c ≠ 0 then f 0 else 0) := by
      rw [Finset.sum_range_succ' (fun j =>
        if j ≠ 0 then f (j - 1) else if j ≠ c + 1 - 1 then f j else 0) c]
      have h1 : ∀ j : ℕ, (if j + 1 ≠ 0 then f (j + 1 - 1)
          else if j + 1 ≠ c + 1 - 1 then f (j + 1) else 0) = f j := by
        intro j
        rw [if_pos (Nat.succ_ne_zero j)]
        simp
      have h2 : (if (0 : ℕ) ≠ 0 then f (0 - 1)
          else if (0 : ℕ) ≠ c + 1 - 1 then f 0 else 0)
          = if c ≠ 0 then f 0 else 0 := by
        rw [if_neg (by simp)]
        simp only [Nat.add_sub_cancel]
        by_cases hc : c = 0
        · subst hc
          simp
        · rw [if_pos (Ne.symm hc), if_pos hc]
      simp only [h1, h2]
    have hR : ∑ j in Finset.range (c + 1), (if j + 1 < c + 1 then f j else 0)
        = ∑ j in Finset.range c, f j := by
      rw [Finset.sum_range_succ, if_neg (by omega), add_zero]
      apply Finset.sum_congr rfl
      intro j hj
      rw [if_pos (by simpa using Finset.mem_range.mp hj)]
    rw [hL, hR]
    congr 1
    by_cases hc : c = 0
    · subst hc
      simp
    · rw [if_pos hc, if_pos (by omega)]

/-- Helper: an if whose condition does not depend on the summation index can be
pulled out of a range sum. -/
theorem sum_if_const (C : ℕ) (P : Prop) [Decidable P] (f : ℕ → ℝ) :
    ∑ j in Finset.range C, (if P then f j else 0)
      = if P then ∑ j in Finset.range C, f j else 0 := by
  by_cases hP : P <;> simp [hP]

/-- Helper: the per-cell dispersion term written with the pair abbreviations,
for a grid whose row `i` has length `C`. -/
theorem get_distance_with_neighbor_eq (m : List (List Neuron)) (C : ℕ)
    (hrowlen : ∀ i, i < m.length → (m.getD i []).length = C) (i j : ℕ)
    (hi : i < m.length) :
    get_distance_with_neighbor m i j
      = (if i ≠ 0 then vPair m (i - 1) j else if i ≠ m.length - 1 then vPair m i j else 0)
        + (if j ≠ 0 then hPair m i (j - 1) else if j ≠ C - 1 then hPair m i j else 0) := by
  unfold get_distance_with_neighbor vPair hPair
  rw [hrowlen i hi]
  congr 1
  · by_cases h0 : i = 0
    · subst h0
      simp
    · rw [if_pos h0, if_pos h0, show i - 1 + 1 = i by omega]
  · by_cases h0 : j = 0
    · subst h0
      simp
    · rw [if_pos h0, if_pos h0, show j - 1 + 1 = j by omega]

/-- C4 (amended): on a rectangular grid, `get_map_dispertion` equals the
spec's one-directional pair sum plus one extra copy of every pair between rows
0 and 1 and of every pair between columns 0 and 1: the code prefers the
previous-row (previous-column) neighbor and falls back to the next one only at
index 0, so the pairs adjacent to index 0 are counted twice. -/
theorem C4_dispersion_amended (m : List (List Neuron)) (C : ℕ)
    (hrect : ∀ row ∈ m, row.length = C) :
    get_map_dispertion m = dispersionSpec m + dispExtraRow m + dispExtraCol m := by
  have hrowlen : ∀ i, i < m.length → (m.getD i []).length = C := by
    intro i hi
    rw [List.getD_eq_getElem m [] hi]
    exact hrect _ (List.getElem_mem hi)
  unfold get_map_dispertion dispersionSpec dispExtraRow dispExtraCol
  simp only [range_map_sum]
  have hmain : ∑ i in Finset.range m.length,
      ∑ j in Finset.range ((m.getD i []).length), get_distance_with_neighbor m i j
      = ∑ i in Finset.range m.length, ∑ j in Finset.range C,
          ((if i ≠ 0 then vPair m (i - 1) j else if i ≠ m.length - 1 then vPair m i j else 0)
            + (if j ≠ 0 then hPair m i (j - 1) else if j ≠ C - 1 then hPair m i j else 0)) := by
    apply Finset.sum_congr rfl
    intro i hi
    have hiR := Finset.mem_range.mp hi
    rw [hrowlen i hiR]
    exact Finset.sum_congr rfl fun j _ => get_distance_with_neighbor_eq m C hrowlen i j hiR
  rw [hmain]
  rw [Finset.sum_congr rfl (fun i _ => Finset.sum_add_distrib)]
  rw [Finset.sum_add_distrib]
  have hvert : ∑ i in Finset.range m.length, ∑ j in Finset.range C,
      (if i ≠ 0 then vPair m (i - 1) j else if i ≠ m.length - 1 then vPair m i j else 0)
      = (∑ i in Finset.range m.length, ∑ j in Finset.range C,
          (if i + 1 < m.length then vPair m i j else 0))
        + (if 2 ≤ m.length then ∑ j in Finset.range C, vPair m 0 j else 0) := by
    rw [Finset.sum_comm]
    have hcols : ∀ j ∈ Finset.range C,
        (∑ i in Finset.range m.length,
          (if i ≠ 0 then vPair m (i - 1) j else if i ≠ m.length - 1 then vPair m i j else 0))
        = (∑ i in Finset.range m.length, (if i + 1 < m.length then vPair m i j else 0))
          + (if 2 ≤ m.length then vPair m 0 j else 0) := fun j _ =>
      chain_sum m.length fun a => vPair m a j
    rw [Finset.sum_congr rfl hcols, Finset.sum_add_distrib, sum_if_const]
    congr 1
    exact Finset.sum_comm
  have hhor : ∑ i in Finset.range m.length, ∑ j in Finset.range C,
      (if j ≠ 0 then hPair m i (j - 1) else if j ≠ C - 1 then hPair m i j else 0)
      = (∑ i in Finset.range m.length, ∑ j in Finset.range C,
          (if j + 1 < C then hPair m i j else 0))
        + ∑ i in Finset.range m.length, (if 2 ≤ C then hPair m i 0 else 0) := by
    rw [← Finset.sum_add_distrib]
    apply Finset.sum_congr rfl
    intro i _
    exact chain_sum C fun a => hPair m i a
  rw [hvert, hhor]
  have hspec : ∑ i in Finset.range m.length,
      ∑ j in Finset.range ((m.getD i []).length),
        ((if i + 1 < m.length then vPair m i j else 0)
          + (if j + 1 < (m.getD i []).length then hPair m i j else 0))
      = (∑ i in Finset.range m.length, ∑ j in Finset.range C,
          (if i + 1 < m.length then vPair m i j else 0))
        + ∑ i in Finset.range m.length, ∑ j in Finset.range C,
          (if j + 1 < C then hPair m i j else 0) := by
    rw [← Finset.sum_add_distrib]
    apply Finset.sum_congr rfl
    intro i hi
    have hiR := Finset.mem_range.mp hi
    rw [hrowlen i hiR, ← Finset.sum_add_distrib]
  rw [hspec]
  have hex : (if 2 ≤ m.length
        then ∑ j in Finset.range ((m.getD 0 []).length), vPair m 0 j else 0)
      = (if 2 ≤ m.length then ∑ j in Finset.range C, vPair m 0 j else 0) := by
    by_cases h2 : 2 ≤ m.length
    · rw [if_pos h2, if_pos h2, hrowlen 0 (by omega)]
    · rw [if_neg h2, if_neg h2]
  rw [hex]
  have hec : ∑ i in Finset.range m.length,
      (if 2 ≤ (m.getD i []).length then hPair m i 0 else 0)
      = ∑ i in Finset.range m.length, (if 2 ≤ C then hPair m i 0 else 0) := by
    apply Finset.sum_congr rfl
    intro i hi
    rw [hrowlen i (Finset.mem_range.mp hi)]
  rw [hec]
  ring

/-- Witness for the amended C4 on the concrete 2-by-1 grid. -/
theorem C4_dispersion_amended_witness :
    (∀ row ∈ mC4, row.length = 1) ∧
      get_map_dispertion mC4 = dispersionSpec mC4 + dispExtraRow mC4 + dispExtraCol mC4 := by
  have hrect : ∀ row ∈ mC4, row.length = 1 := by
    intro row hrow
    have hcases : row = [⟨[0, 0], 0, 0, 0⟩] ∨ row = [⟨[1, 0], 1, 0, 0⟩] := by
      simpa [mC4] using hrow
    rcases hcases with h | h <;> rw [h] <;> rfl
  exact ⟨hrect, C4_dispersion_amended mC4 1 hrect⟩

/-- Counterexample to C4 as stated: on the concrete 2-by-1 grid the code's
dispersion is 2 (the single adjacent pair is counted once per cell), while the
spec's no-double-counting sum is 1. -/
theorem C4_dispersion_counterexample : get_map_dispertion mC4 ≠ dispersionSpec mC4 := by
  have h1 : get_map_dispertion mC4 = 2 := by
    unfold get_map_dispertion get_distance_with_neighbor
    norm_num [mC4, w01, cellOf, List.range_succ]
  have h2 : dispersionSpec mC4 = 1 := by
    unfold dispersionSpec vPair hPair
    norm_num [mC4, w01, cellOf, List.range_succ]
  rw [h1, h2]
  norm_num

/-- Helper: row-major precedence is irreflexive. -/
theorem posLt_irrefl (u : GridPos) : ¬ posLt u u := by
  simp [posLt]

/-- Helper: the strict priority order is irreflexive. -/
theorem ordE_irrefl (a : ScanEntry) : ¬ ordE a a := by
  simp [ordE, posLt]

/-- Helper: the strict priority order implies distance order. -/
theorem ordE_le {a b : ScanEntry} (h : ordE a b) : a.2 ≤ b.2 := by
  rcases h with h | ⟨h, _⟩
  · exact le_of_lt h
  · exact le_of_eq h

/-- Helper: `sortD` permutes its input. -/
theorem sortD_perm (l : List ScanEntry) : List.Perm (sortD l) l :=
  List.perm_insertionSort _ l

/-- Helper: `sortD` preserves length. -/
theorem sortD_length (l : List ScanEntry) : (sortD l).length = l.length :=
  (sortD_perm l).length_eq

/-- Helper: `sortD` preserves membership. -/
theorem sortD_mem {a : ScanEntry} {l : List ScanEntry} : a ∈ sortD l ↔ a ∈ l :=
  (sortD_perm l).mem_iff

/-- Helper: inserting into an `ordE`-sorted list keeps it `ordE`-sorted, as long
as the inserted entry beats (in `ordE`) everything it does not strictly exceed
in distance. -/
theorem orderedInsert_pairwise_ordE (a : ScanEntry) :
    ∀ (s : List ScanEntry), s.Pairwise ordE →
      (∀ b ∈ s, a.2 ≤ b.2 → ordE a b) →
      (List.orderedInsert (fun x y => x.2 ≤ y.2) a s).Pairwise ordE
  | [], _, _ => List.pairwise_singleton _ _
  | b :: t, hs, hcond => by
    obtain ⟨hb, ht⟩ := List.pairwise_cons.mp hs
    by_cases hab : a.2 ≤ b.2
    · rw [List.orderedInsert, if_pos hab]
      refine List.Pairwise.cons ?_ hs
      intro c hc
      rcases List.mem_cons.mp hc with hcb | hct
      · rw [hcb]
        exact hcond b (by simp) hab
      · exact hcond c (by simp [hct]) (le_trans hab (ordE_le (hb c hct)))
    · rw [List.orderedInsert, if_neg hab]
      have hba : b.2 < a.2 := lt_of_not_le hab
      refine List.Pairwise.cons ?_
        (orderedInsert_pairwise_ordE a t ht fun c hc hac => hcond c (by simp [hc]) hac)
      intro c hc
      rcases (List.mem_orderedInsert _).mp hc with hca | hct
      · rw [hca]
        exact Or.inl hba
      · exact hb c hct

/-- Helper: sorting an `ordE`-sorted list with one later-scanned entry appended
yields an `ordE`-sorted list: the stable sort keeps earlier-scanned entries in
front of distance ties. -/
theorem sortD_append_pairwise :
    ∀ (acc : List ScanEntry) (p : ScanEntry), acc.Pairwise ordE →
      (∀ a ∈ acc, a.2 = p.2 → posLt a.1 p.1) →
      (sortD (acc ++ [p])).Pairwise ordE
  | [], p, _, _ => List.pairwise_singleton _ _
  | a :: acc, p, hp, htie => by
    obtain ⟨ha, hacc⟩ := List.pairwise_cons.mp hp
    have hrec := sortD_append_pairwise acc p hacc fun b hb => htie b (by simp [hb])
    have hform : sortD ((a :: acc) ++ [p])
        = List.orderedInsert (fun x y => x.2 ≤ y.2) a (sortD (acc ++ [p])) := rfl
    rw [hform]
    apply orderedInsert_pairwise_ordE a _ hrec
    intro b hb hab
    have hbmem : b ∈ acc ++ [p] := sortD_mem.mp hb
    rcases List.mem_append.mp hbmem with hbacc | hbp
    · exact ha b hbacc
    · have hbp' : b = p := by simpa using hbp
      subst hbp'
      rcases lt_or_eq_of_le hab with hlt | heq
      · exact Or.inl hlt
      · exact Or.inr ⟨heq, htie a (by simp) heq⟩

/-- Helper: lists that are pairwise in a strict order have no duplicates. -/
theorem nodup_of_pairwise_ordE {l : List ScanEntry} (h : l.Pairwise ordE) :
    l.Nodup :=
  h.imp fun hab => by
    intro heq
    subst heq
    exact ordE_irrefl _ hab

/-- Helper: lists whose positions strictly increase have no duplicates. -/
theorem nodup_of_pairwise_posLt {l : List ScanEntry}
    (h : l.Pairwise fun a b => posLt a.1 b.1) : l.Nodup :=
  h.imp fun hab => by
    intro heq
    subst heq
    exact posLt_irrefl _ hab

/-- Helper: a nodup list included in a nodup list of the same length contains it. -/
theorem subset_rev_of_length_eq {l1 l2 : List ScanEntry} (h1 : l1.Nodup)
    (h2 : l2.Nodup) (hsub : ∀ a ∈ l1, a ∈ l2) (hlen : l2.length ≤ l1.length) :
    ∀ b ∈ l2, b ∈ l1 := by
  intro b hb
  have hfin : l1.toFinset ⊆ l2.toFinset := by
    intro a ha
    rw [List.mem_toFinset] at ha ⊢
    exact hsub a ha
  have hcard : l2.toFinset.card ≤ l1.toFinset.card := by
    rw [List.toFinset_card_of_nodup h1, List.toFinset_card_of_nodup h2]
    exact hlen
  have heq : l1.toFinset = l2.toFinset := Finset.eq_of_subset_of_card_le hfin hcard
  rw [← List.mem_toFinset, ← heq, List.mem_toFinset] at hb
  exact hb

/-- Helper: a list of length `k ≥ 1` sorted by `ordE` decomposes as its first
`k - 1` entries followed by its last entry, which every earlier entry beats. -/
theorem sorted_last_decomp (acc : List ScanEntry) (k : ℕ) (hk : 1 ≤ k)
    (hlen : acc.length = k) (hs : acc.Pairwise ordE) (hklt : k - 1 < acc.length) :
    acc = acc.take (k - 1) ++ [acc.get ⟨k - 1, hklt⟩]
      ∧ (∀ a ∈ acc.take (k - 1), ordE a (acc.get ⟨k - 1, hklt⟩))
      ∧ ∀ a ∈ acc, a = acc.get ⟨k - 1, hklt⟩ ∨ ordE a (acc.get ⟨k - 1, hklt⟩) := by
  have hdecomp : acc = acc.take (k - 1) ++ [acc.get ⟨k - 1, hklt⟩] := by
    conv_lhs => rw [← List.take_append_drop (k - 1) acc]
    congr 1
    rw [List.drop_eq_getElem_cons hklt]
    congr 1
    have : k - 1 + 1 = acc.length := by omega
    rw [this]
    exact List.drop_length acc
  have hpair := List.pairwise_iff_getElem.mp hs
  have htake : ∀ a ∈ acc.take (k - 1), ordE a (acc.get ⟨k - 1, hklt⟩) := by
    intro a ha
    obtain ⟨ia, hia, hae⟩ := List.getElem_of_mem ha
    have hia' : ia < k - 1 := by
      have := List.length_take (k - 1) acc
      omega
    have hgt : (acc.take (k - 1))[ia] = acc[ia] := List.getElem_take acc
    rw [← hae, hgt]
    have := hpair ia (k - 1) (by omega) hklt (by omega)
    simpa using this
  refine ⟨hdecomp, htake, ?_⟩
  intro a ha
  obtain ⟨ia, hia, hae⟩ := List.getElem_of_mem ha
  rcases Nat.lt_or_ge ia (k - 1) with hlt | hge
  · right
    rw [← hae]
    have := hpair ia (k - 1) (by omega) hklt hlt
    simpa using this
  · left
    have : ia = k - 1 := by omega
    subst this
    rw [← hae]
    simp

/-- Helper: one `v2step` preserves the scan invariant when the new entry is
scanned after everything seen so far. -/
theorem v2step_inv (k : ℕ) (seen acc : List ScanEntry) (p : ScanEntry)
    (hseenp : ∀ b ∈ seen, posLt b.1 p.1)
    (hseenP : seen.Pairwise fun a b => posLt a.1 b.1)
    (h : ScanInv k seen acc) : ScanInv k (seen ++ [p]) (v2step k acc p) := by
  by_cases hlt : acc.length < k
  · have hstep : v2step k acc p = sortD (acc ++ [p]) := by
      unfold v2step
      rw [if_pos hlt]
    rw [hstep]
    have hlen := h.len
    refine ⟨?_, ?_, ?_, ?_⟩
    · rw [sortD_length, List.length_append, List.length_append]
      simp only [List.length_singleton]
      omega
    · exact sortD_append_pairwise acc p h.sorted
        fun a ha _ => hseenp a (h.mem a ha)
    · intro a ha
      rcases List.mem_append.mp (sortD_mem.mp ha) with haa | hap
      · exact List.mem_append_left _ (h.mem a haa)
      · exact List.mem_append_right _ hap
    · intro b hb hnb a ha
      exfalso
      rcases List.mem_append.mp hb with hbseen | hbp
      · have hacl : acc.length = seen.length := by omega
        have hbacc : b ∈ acc := subset_rev_of_length_eq
          (nodup_of_pairwise_ordE h.sorted) (nodup_of_pairwise_posLt hseenP)
          h.mem (by omega) b hbseen
        exact hnb (sortD_mem.mpr (List.mem_append_left _ hbacc))
      · exact hnb (sortD_mem.mpr (List.mem_append_right _ hbp))
  · have hacl : acc.length = k := by
      have := h.len
      omega
    rcases Nat.eq_zero_or_pos k with hk0 | hk1
    · have hacc : acc = [] := List.length_eq_zero.mp (by omega)
      have hstep : v2step k acc p = acc := by
        unfold v2step
        rw [if_neg hlt, List.getElem?_eq_none (by omega : acc.length ≤ k - 1)]
      rw [hstep, hacc]
      refine ⟨by simp [hk0], List.Pairwise.nil, by simp, by simp⟩
    · have hklt : k - 1 < acc.length := by omega
      have hwsome : acc[k - 1]? = some (acc.get ⟨k - 1, hklt⟩) := by
        rw [List.getElem?_eq_getElem hklt]
        simp
      obtain ⟨hdecomp, htake, hmax⟩ := sorted_last_decomp acc k hk1 hacl h.sorted hklt
      have hset : acc.set (k - 1) p = acc.take (k - 1) ++ [p] := by
        rw [List.set_eq_take_append_cons_drop, if_pos hklt]
        congr 1
        rw [show k - 1 + 1 = acc.length by omega, List.drop_length]
      by_cases hplt : p.2 < (acc.get ⟨k - 1, hklt⟩).2
      · have hstep : v2step k acc p = sortD (acc.take (k - 1) ++ [p]) := by
          unfold v2step
          rw [if_neg hlt, hwsome]
          dsimp only
          rw [if_pos hplt, hset]
        rw [hstep]
        refine ⟨?_, ?_, ?_, ?_⟩
        · rw [sortD_length, List.length_append, List.length_take, List.length_append]
          simp only [List.length_singleton]
          have := h.len
          omega
        · exact sortD_append_pairwise (acc.take (k - 1)) p
            (h.sorted.sublist (List.take_sublist _ _))
            fun a ha _ => hseenp a (h.mem a ((List.take_sublist _ _).subset ha))
        · intro a ha
          rcases List.mem_append.mp (sortD_mem.mp ha) with haa | hap
          · exact List.mem_append_left _ (h.mem a ((List.take_sublist _ _).subset haa))
          · exact List.mem_append_right _ hap
        · intro b hb hnb a ha
          have hamem : a ∈ acc.take (k - 1) ∨ a = p := by
            rcases List.mem_append.mp (sortD_mem.mp ha) with haa | hap
            · exact Or.inl haa
            · exact Or.inr (by simpa using hap)
          rcases List.mem_append.mp hb with hbseen | hbp
          · by_cases hbacc : b ∈ acc
            · have hbw : b = acc.get ⟨k - 1, hklt⟩ := by
                have hbmem : b ∈ acc.take (k - 1) ++ [acc.get ⟨k - 1, hklt⟩] := by
                  rw [← hdecomp]
                  exact hbacc
                rcases List.mem_append.mp hbmem with htk | hw
                · exact absurd (sortD_mem.mpr (List.mem_append_left _ htk)) hnb
                · simpa using hw
              rcases hamem with htk | hap
              · rw [hbw]
                exact htake a htk
              · rw [hbw, hap]
                exact Or.inl hplt
            · have hdom := h.dom b hbseen hbacc
              rcases hamem with htk | hap
              · exact hdom a ((List.take_sublist _ _).subset htk)
              · have hwb := hdom _ (List.get_mem acc (k - 1) hklt)
                rw [hap]
                exact Or.inl (lt_of_lt_of_le hplt (ordE_le hwb))
          · exact absurd (sortD_mem.mpr (List.mem_append_right _ hbp)) hnb
      · have hstep : v2step k acc p = acc := by
          unfold v2step
          rw [if_neg hlt, hwsome]
          dsimp only
          rw [if_neg hplt]
        rw [hstep]
        refine ⟨?_, h.sorted, ?_, ?_⟩
        · rw [hacl, List.length_append]
          have := h.len
          simp only [List.length_singleton]
          omega
        · intro a ha
          exact List.mem_append_left _ (h.mem a ha)
        · intro b hb hnb a ha
          rcases List.mem_append.mp hb with hbseen | hbp
          · exact h.dom b hbseen hnb a ha
          · have hbp' : b = p := by simpa using hbp
            subst hbp'
            have haw : a.2 ≤ (acc.get ⟨k - 1, hklt⟩).2 := by
              rcases hmax a ha with haw | haw
              · rw [haw]
              · exact ordE_le haw
            have hap : a.2 ≤ b.2 := le_trans haw (not_lt.mp hplt)
            rcases lt_or_eq_of_le hap with hlt2 | heq
            · exact Or.inl hlt2
            · exact Or.inr ⟨heq, hseenp a (h.mem a ha)⟩

/-- Helper: folding `v2step` over later-scanned entries preserves the invariant. -/
theorem v2scan_fold_inv (k : ℕ) :
    ∀ (l seen acc : List ScanEntry),
      (∀ b ∈ seen, ∀ p ∈ l, posLt b.1 p.1) →
      (l.Pairwise fun a b => posLt a.1 b.1) →
      (seen.Pairwise fun a b => posLt a.1 b.1) →
      ScanInv k seen acc → ScanInv k (seen ++ l) (l.foldl (v2step k) acc)
  | [], seen, acc, _, _, _, h => by simpa using h
  | p :: t, seen, acc, hcross, hl, hseenP, h => by
    obtain ⟨hp, ht⟩ := List.pairwise_cons.mp hl
    have hstep := v2step_inv k seen acc p (fun b hb => hcross b hb p (by simp)) hseenP h
    have hrec := v2scan_fold_inv k t (seen ++ [p]) (v2step k acc p)
      (fun b hb r hr => by
        rcases List.mem_append.mp hb with hbs | hbp
        · exact hcross b hbs r (by simp [hr])
        · rw [List.mem_singleton.mp hbp]
          exact hp r hr)
      ht
      (by
        apply List.pairwise_append.mpr
        refine ⟨hseenP, List.pairwise_singleton _ _, ?_⟩
        intro a ha b hb
        rw [List.mem_singleton.mp hb]
        exact hcross a ha p (by simp))
      hstep
    rw [List.foldl_cons]
    have hassoc : seen ++ p :: t = (seen ++ [p]) ++ t := by simp
    rw [hassoc]
    exact hrec

/-- Helper: the row-major scan list has strictly increasing positions. -/
theorem scanList_pairwise (m : List (List Neuron)) (q : ℝ × ℝ) :
    (scanList m q).Pairwise fun a b => posLt a.1 b.1 := by
  unfold scanList
  apply List.pairwise_flatten.mpr
  constructor
  · intro l hl
    obtain ⟨i, _, rfl⟩ := List.mem_map.mp hl
    apply List.pairwise_map.mpr
    apply (List.pairwise_lt_range _).imp
    intro j j' hjj
    exact Or.inr ⟨rfl, hjj⟩
  · apply List.pairwise_map.mpr
    apply (List.pairwise_lt_range m.length).imp
    intro i i' hii x hx y hy
    obtain ⟨j, _, rfl⟩ := List.mem_map.mp hx
    obtain ⟨j', _, rfl⟩ := List.mem_map.mp hy
    exact Or.inl hii

/-- Helper: every scan entry is a genuine prototype position paired with its
distance to the query. -/
theorem scanList_mem_spec (m : List (List Neuron)) (q : ℝ × ℝ) :
    ∀ e ∈ scanList m q, e.2 = queryDist m q e.1.1 e.1.2 := by
  intro e he
  unfold scanList at he
  obtain ⟨l, hl, hel⟩ := List.mem_flatten.mp he
  obtain ⟨i, _, rfl⟩ := List.mem_map.mp hl
  obtain ⟨j, _, rfl⟩ := List.mem_map.mp hel
  rfl

/-- Helper: for `k ≥ 1` the fallible step never fails and agrees with the total
step. -/
theorem v2stepF_eq (k : ℕ) (hk : 1 ≤ k) (acc : List ScanEntry) (p : ScanEntry) :
    v2stepF k acc p = some (v2step k acc p) := by
  unfold v2stepF v2step
  by_cases hlt : acc.length < k
  · rw [if_pos hlt, if_pos hlt]
  · have hklt : k - 1 < acc.length := by omega
    rw [if_neg hlt, if_neg hlt, List.getElem?_eq_getElem hklt]

/-- Helper: for `k ≥ 1` the fallible scan never fails and agrees with the total
scan. -/
theorem v2scanF_fold_eq (k : ℕ) (hk : 1 ≤ k) :
    ∀ (l acc : List ScanEntry),
      l.foldlM (v2stepF k) acc = some (l.foldl (v2step k) acc)
  | [], acc => rfl
  | p :: t, acc => by
    rw [List.foldlM_cons, v2stepF_eq k hk acc p]
    simpa using v2scanF_fold_eq k hk t (v2step k acc p)

/-- Helper: length of the running list after folding the scan. -/
theorem v2scan_fold_length (k : ℕ) :
    ∀ (l acc : List ScanEntry), acc.length ≤ k →
      (l.foldl (v2step k) acc).length = min k (acc.length + l.length)
  | [], acc, h => by
    simp [min_eq_right h]
  | p :: t, acc, h => by
    rw [List.foldl_cons]
    have hstep : (v2step k acc p).length = min k (acc.length + 1) := by
      unfold v2step
      by_cases hlt : acc.length < k
      · rw [if_pos hlt, sortD_length, List.length_append]
        simp only [List.length_singleton]
        omega
      · have hacl : acc.length = k := by omega
        rcases Nat.eq_zero_or_pos k with hk0 | hk1
        · rw [if_neg hlt, List.getElem?_eq_none (by omega : acc.length ≤ k - 1)]
          dsimp only
          omega
        · have hklt : k - 1 < acc.length := by omega
          rw [if_neg hlt, List.getElem?_eq_getElem hklt]
          dsimp only
          by_cases hplt : p.2 < acc[k - 1].2
          · rw [if_pos hplt, sortD_length, List.length_set]
            omega
          · rw [if_neg hplt]
            omega
    have h2 : (v2step k acc p).length ≤ k := by
      rw [hstep]
      omega
    rw [v2scan_fold_length k t (v2step k acc p) h2, hstep]
    simp only [List.length_cons]
    omega

/-- Helper: each `v2step` only adds the scanned entry. -/
theorem v2step_subset (k : ℕ) (acc : List ScanEntry) (p : ScanEntry) :
    ∀ a ∈ v2step k acc p, a ∈ acc ∨ a = p := by
  intro a ha
  unfold v2step at ha
  by_cases hlt : acc.length < k
  · rw [if_pos hlt] at ha
    rcases List.mem_append.mp (sortD_mem.mp ha) with h | h
    · exact Or.inl h
    · exact Or.inr (by simpa using h)
  · rw [if_neg hlt] at ha
    cases hw : acc[k - 1]? with
    | none =>
      rw [hw] at ha
      exact Or.inl ha
    | some w =>
      rw [hw] at ha
      dsimp only at ha
      by_cases hplt : p.2 < w.2
      · rw [if_pos hplt] at ha
        rcases List.mem_or_eq_of_mem_set (sortD_mem.mp ha) with h | h
        · exact Or.inl h
        · exact Or.inr h
      · rw [if_neg hplt] at ha
        exact Or.inl ha

/-- Helper: everything returned by the scan was scanned. -/
theorem v2scan_fold_subset (k : ℕ) :
    ∀ (l acc : List ScanEntry) (a : ScanEntry),
      a ∈ l.foldl (v2step k) acc → a ∈ acc ∨ a ∈ l
  | [], _, a, h => Or.inl h
  | p :: t, acc, a, h => by
    rw [List.foldl_cons] at h
    rcases v2scan_fold_subset k t (v2step k acc p) a h with hs | ht
    · rcases v2step_subset k acc p a hs with h1 | h1
      · exact Or.inl h1
      · exact Or.inr (by simp [h1])
    · exact Or.inr (by simp [ht])

/-- C5: for `1 ≤ k ≤` the number of prototypes, the running-list scan of
`find_hand_position_v2` (also used by v3) succeeds and returns exactly `k`
(position, distance) pairs, sorted ascending by distance, each being a genuine
scanned prototype with its true distance; every returned distance is at most
the distance of every prototype not returned, and on an exact distance tie
every returned entry was scanned strictly earlier in row-major order than the
excluded one (a later equal distance never replaces a kept entry, since
replacement requires a strictly smaller distance). -/
theorem C5_knearest_scan (m : List (List Neuron)) (q : ℝ × ℝ) (k : ℕ)
    (hk : 1 ≤ k) (hcount : k ≤ (scanList m q).length) :
    v2scanF k (scanList m q) = some (v2scan k (scanList m q))
    ∧ (v2scan k (scanList m q)).length = k
    ∧ (v2scan k (scanList m q)).Pairwise (fun a b => a.2 ≤ b.2)
    ∧ (∀ p ∈ v2scan k (scanList m q),
        p ∈ scanList m q ∧ p.2 = queryDist m q p.1.1 p.1.2)
    ∧ ∀ b ∈ scanList m q, b ∉ v2scan k (scanList m q) →
        ∀ a ∈ v2scan k (scanList m q),
          a.2 ≤ b.2 ∧ (a.2 = b.2 → posLt a.1 b.1) := by
  have hinv : ScanInv k (scanList m q) (v2scan k (scanList m q)) := by
    have hfold := v2scan_fold_inv k (scanList m q) [] []
      (by simp) (scanList_pairwise m q) List.Pairwise.nil
      ⟨by simp, List.Pairwise.nil, by simp, by simp⟩
    simpa using hfold
  refine ⟨v2scanF_fold_eq k hk (scanList m q) [], ?_, ?_, ?_, ?_⟩
  · rw [hinv.len]
    exact min_eq_left hcount
  · exact hinv.sorted.imp fun h => ordE_le h
  · intro p hp
    exact ⟨hinv.mem p hp, scanList_mem_spec m q p (hinv.mem p hp)⟩
  · intro b hb hnb a ha
    rcases hinv.dom b hb hnb a ha with h | ⟨he, hp⟩
    · exact ⟨le_of_lt h, fun heq => absurd heq (ne_of_lt h)⟩
    · exact ⟨le_of_eq he, fun _ => hp⟩

/-- Witness for C5 on the concrete one-cell map with `k = 1`. -/
theorem C5_knearest_scan_witness :
    1 ≤ 1 ∧ 1 ≤ (scanList som0.map (0, 0)).length ∧
      (v2scanF 1 (scanList som0.map (0, 0)) = some (v2scan 1 (scanList som0.map (0, 0)))
      ∧ (v2scan 1 (scanList som0.map (0, 0))).length = 1
      ∧ (v2scan 1 (scanList som0.map (0, 0))).Pairwise (fun a b => a.2 ≤ b.2)
      ∧ (∀ p ∈ v2scan 1 (scanList som0.map (0, 0)),
          p ∈ scanList som0.map (0, 0)
            ∧ p.2 = queryDist som0.map (0, 0) p.1.1 p.1.2)
      ∧ ∀ b ∈ scanList som0.map (0, 0), b ∉ v2scan 1 (scanList som0.map (0, 0)) →
          ∀ a ∈ v2scan 1 (scanList som0.map (0, 0)),
            a.2 ≤ b.2 ∧ (a.2 = b.2 → posLt a.1 b.1)) := by
  have hlen : (scanList som0.map (0, 0)).length = 1 := by
    simp [scanList, som0, List.range_succ]
  exact ⟨le_refl 1, by rw [hlen],
    C5_knearest_scan som0.map (0, 0) 1 (le_refl 1) (by rw [hlen])⟩

/-- Helper: on a nonempty grid the row-major scan starts at cell `(0, 0)`. -/
theorem scanList_head (m : List (List Neuron)) (q : ℝ × ℝ)
    (hR : 0 < m.length) (hC : 0 < (m.getD 0 []).length) :
    ∃ t, scanList m q = (((0, 0) : GridPos), queryDist m q 0 0) :: t := by
  unfold scanList
  obtain ⟨R, hR'⟩ := Nat.exists_eq_succ_of_ne_zero (by omega : m.length ≠ 0)
  obtain ⟨c, hC'⟩ := Nat.exists_eq_succ_of_ne_zero
    (by omega : (m.getD 0 []).length ≠ 0)
  rw [hR', List.range_succ_eq_map, List.map_cons, List.flatten_cons,
    hC', List.range_succ_eq_map, List.map_cons]
  exact ⟨_, rfl⟩

/-- Helper: the k = 1 scan keeps exactly the running strict minimum. -/
theorem v2scan_one_aux : ∀ (t : List ScanEntry) (b : ScanEntry),
    t.foldl (v2step 1) [b]
      = [t.foldl (fun best e => if e.2 < best.2 then e else best) b]
  | [], _ => rfl
  | e :: t, b => by
    rw [List.foldl_cons, List.foldl_cons]
    have hstep : v2step 1 [b] e = [if e.2 < b.2 then e else b] := by
      unfold v2step
      rw [if_neg (by simp)]
      rw [show ([b] : List ScanEntry)[1 - 1]? = some b from rfl]
      dsimp only
      by_cases hlt : e.2 < b.2
      · rw [if_pos hlt, if_pos hlt]
        rfl
      · rw [if_neg hlt, if_neg hlt]
    rw [hstep]
    exact v2scan_one_aux t (if e.2 < b.2 then e else b)

/-- Helper: the k = 1 scan over a nonempty list returns the singleton holding
the first row-major strict minimum. -/
theorem v2scan_one (p : ScanEntry) (t : List ScanEntry) :
    v2scan 1 (p :: t)
      = [t.foldl (fun best e => if e.2 < best.2 then e else best) p] := by
  unfold v2scan
  rw [List.foldl_cons]
  have h1 : v2step 1 [] p = [p] := by
    unfold v2step
    rw [if_pos (by simp)]
    rfl
  rw [h1]
  exact v2scan_one_aux t p

/-- C6: on a nonempty map, `find_hand_position_v2` with `nb_values = 1`
succeeds and selects exactly the grid position chosen by
`find_hand_position_v1`, and its uniform average equals the selected
prototype's output-subspace weights, i.e. the second component returned by
`find_hand_position_v1`. -/
theorem C6_v1_v2_k1_agree (m : List (List Neuron)) (q : ℝ × ℝ)
    (hR : 0 < m.length) (hC : 0 < (m.getD 0 []).length) :
    find_hand_position_v2 m q 1
      = some ([find_hand_position_v1_select m q],
          ((find_hand_position_v1 m q).2.1, (find_hand_position_v1 m q).2.2)) := by
  obtain ⟨t, hscan⟩ := scanList_head m q hR hC
  have hsel : find_hand_position_v1_select m q
      = (t.foldl (fun best e => if e.2 < best.2 then e else best)
          (((0, 0) : GridPos), queryDist m q 0 0)).1 := by
    unfold find_hand_position_v1_select
    rw [hscan, List.foldl_cons, if_neg (lt_irrefl _)]
  have hscan1 : v2scan 1 (scanList m q)
      = [t.foldl (fun best e => if e.2 < best.2 then e else best)
          (((0, 0) : GridPos), queryDist m q 0 0)] := by
    rw [hscan]
    exact v2scan_one _ t
  unfold find_hand_position_v2
  rw [show v2scanF 1 (scanList m q) = some (v2scan 1 (scanList m q)) from
    v2scanF_fold_eq 1 (le_refl 1) _ [], Option.some_bind, hscan1,
    if_pos ⟨le_refl 1, by simp⟩]
  simp only [List.take_succ_cons, List.take_zero, List.map_cons, List.map_nil,
    List.sum_cons, List.sum_nil, add_zero, Nat.cast_one, div_one]
  unfold find_hand_position_v1
  dsimp only
  rw [hsel]

/-- Witness for C6 on the concrete one-cell map. -/
theorem C6_v1_v2_k1_agree_witness :
    0 < som0.map.length ∧ 0 < (som0.map.getD 0 []).length ∧
      find_hand_position_v2 som0.map (0, 0) 1
        = some ([find_hand_position_v1_select som0.map (0, 0)],
            ((find_hand_position_v1 som0.map (0, 0)).2.1,
             (find_hand_position_v1 som0.map (0, 0)).2.2)) :=
  ⟨by norm_num [som0], by norm_num [som0],
    C6_v1_v2_k1_agree som0.map (0, 0) (by norm_num [som0]) (by norm_num [som0])⟩

/-- C7 (amended): if the `k ≥ 2` selected nearest prototypes all lie at the
same nonzero distance `d` from the query, the distance-weighted estimate of
`find_hand_position_v3` equals the uniform estimate of `find_hand_position_v2`:
each weight `(1 - d/(k*d))/(k-1)` degenerates to `1/k`.  The nonzero-distance
proviso is forced: at common distance 0 the weighting divides by a zero total
distance. -/
theorem C7_weighted_equals_uniform_amended (m : List (List Neuron)) (q : ℝ × ℝ)
    (k : ℕ) (d : ℝ) (hk2 : 2 ≤ k) (hcount : k ≤ (scanList m q).length)
    (hd : ∀ p ∈ v2scan k (scanList m q), p.2 = d) (hd0 : d ≠ 0) :
    find_hand_position_v3 m q k = find_hand_position_v2 m q k := by
  have hk1 : 1 ≤ k := by omega
  have hlen : (v2scan k (scanList m q)).length = k := by
    have hfold := v2scan_fold_length k (scanList m q) [] (by simp)
    simpa [min_eq_left hcount] using hfold
  set res := v2scan k (scanList m q) with hres
  have htake : res.take k = res := List.take_of_length_le (by rw [hlen])
  have hsum : ((res.take k).map Prod.snd).sum = (k : ℝ) * d := by
    rw [htake]
    have hall : ∀ x ∈ res.map Prod.snd, x = d := by
      intro x hx
      obtain ⟨p, hp, rfl⟩ := List.mem_map.mp hx
      exact hd p hp
    rw [List.sum_eq_card_nsmul _ d hall, List.length_map, hlen]
    simp [nsmul_eq_mul]
  have hkR : ((k : ℕ) : ℝ) ≠ 0 := Nat.cast_ne_zero.mpr (by omega)
  have htot : ((res.take k).map Prod.snd).sum ≠ 0 := by
    rw [hsum]
    exact mul_ne_zero hkR hd0
  have hk1R : ((k : ℕ) : ℝ) - 1 ≠ 0 := by
    have h2R : (2 : ℝ) ≤ ((k : ℕ) : ℝ) := by exact_mod_cast hk2
    intro h0
    rw [sub_eq_zero] at h0
    rw [h0] at h2R
    norm_num at h2R
  have hwt : ∀ e ∈ res.take k,
      (1 - e.2 / ((res.take k).map Prod.snd).sum) / ((k - 1 : ℕ) : ℝ)
        = 1 / ((k : ℕ) : ℝ) := by
    intro e he
    rw [hsum, hd e (by rw [← htake]; exact he)]
    have hcast : ((k - 1 : ℕ) : ℝ) = ((k : ℕ) : ℝ) - 1 := by
      rw [Nat.cast_sub hk1]
      norm_num
    rw [hcast]
    field_simp
    ring
  have hmap2 : (res.take k).map (fun e => w01 m e.1.1 e.1.2 2
        * ((1 - e.2 / ((res.take k).map Prod.snd).sum) / ((k - 1 : ℕ) : ℝ)))
      = (res.take k).map fun e => w01 m e.1.1 e.1.2 2 * (1 / ((k : ℕ) : ℝ)) := by
    apply List.map_congr_left
    intro e he
    rw [hwt e he]
  have hmap3 : (res.take k).map (fun e => w01 m e.1.1 e.1.2 3
        * ((1 - e.2 / ((res.take k).map Prod.snd).sum) / ((k - 1 : ℕ) : ℝ)))
      = (res.take k).map fun e => w01 m e.1.1 e.1.2 3 * (1 / ((k : ℕ) : ℝ)) := by
    apply List.map_congr_left
    intro e he
    rw [hwt e he]
  unfold find_hand_position_v3 find_hand_position_v2
  rw [show v2scanF k (scanList m q) = some res from v2scanF_fold_eq k hk1 _ []]
  rw [Option.some_bind, Option.some_bind]
  rw [if_pos (by rw [hlen] : k ≤ res.length)]
  rw [if_neg (by
    rintro ⟨-, hor⟩
    rcases hor with h0 | h1
    · exact htot h0
    · omega)]
  rw [if_pos ⟨hk1, by rw [hlen]⟩]
  rw [hmap2, hmap3, List.sum_map_mul_right, List.sum_map_mul_right,
    mul_one_div, mul_one_div]

/-- Helper: the concrete scan of the equal-distance-1 grid. -/
theorem scanList_mC7b :
    scanList mC7b (0, 0) = [(((0, 0) : GridPos), 1), (((1, 0) : GridPos), 1)] := by
  unfold scanList queryDist
  norm_num [mC7b, List.range_succ, w01, cellOf, Real.sqrt_one]

/-- Helper: the concrete scan of the zero-distance grid. -/
theorem scanList_mC7 :
    scanList mC7 (0, 0) = [(((0, 0) : GridPos), 0), (((1, 0) : GridPos), 0)] := by
  unfold scanList queryDist
  norm_num [mC7, List.range_succ, w01, cellOf, Real.sqrt_zero]

/-- Helper: the k = 2 scan of a two-entry list with equal distances keeps both
entries in scan order. -/
theorem v2scan_two_eq (u v : GridPos) (a : ℝ) :
    v2scan 2 [((u, a) : ScanEntry), (v, a)] = [((u, a) : ScanEntry), (v, a)] := by
  unfold v2scan
  rw [List.foldl_cons, List.foldl_cons, List.foldl_nil]
  rw [show v2step 2 [] ((u, a) : ScanEntry) = [((u, a) : ScanEntry)] from by
    unfold v2step
    rw [if_pos (by simp)]
    rfl]
  unfold v2step
  rw [if_pos (by simp)]
  unfold sortD
  simp [List.insertionSort, List.orderedInsert]

/-- Witness for the amended C7 on the concrete grid whose two prototypes both
sit at distance 1 from the query. -/
theorem C7_weighted_equals_uniform_amended_witness :
    2 ≤ 2 ∧ 2 ≤ (scanList mC7b (0, 0)).length
      ∧ (∀ p ∈ v2scan 2 (scanList mC7b (0, 0)), p.2 = 1) ∧ (1 : ℝ) ≠ 0
      ∧ find_hand_position_v3 mC7b (0, 0) 2 = find_hand_position_v2 mC7b (0, 0) 2 := by
  have hcount : 2 ≤ (scanList mC7b (0, 0)).length := by
    rw [scanList_mC7b]
    norm_num
  have hd : ∀ p ∈ v2scan 2 (scanList mC7b (0, 0)), p.2 = 1 := by
    intro p hp
    rcases v2scan_fold_subset 2 (scanList mC7b (0, 0)) [] p hp with h | h
    · simp at h
    · rw [scanList_mC7b] at h
      rcases List.mem_cons.mp h with h1 | h1
      · rw [h1]
      · rw [List.mem_singleton.mp h1]
  exact ⟨le_refl 2, hcount, hd, one_ne_zero,
    C7_weighted_equals_uniform_amended mC7b (0, 0) 2 1 (le_refl 2) hcount hd one_ne_zero⟩

/-- Counterexample to C7 as stated: on the concrete grid whose two prototypes
both sit at distance exactly 0 from the query, the k = 2 neighbors are
equidistant, yet the weighted estimate is not the uniform estimate: the
weighting divides by the zero total distance (a ZeroDivisionError in Python,
`none` here), while the uniform average succeeds. -/
theorem C7_weighted_equals_uniform_counterexample :
    find_hand_position_v3 mC7 (0, 0) 2 = none
      ∧ find_hand_position_v2 mC7 (0, 0) 2 ≠ none := by
  have hscan : v2scan 2 (scanList mC7 (0, 0))
      = [(((0, 0) : GridPos), 0), (((1, 0) : GridPos), 0)] := by
    rw [scanList_mC7]
    exact v2scan_two_eq (0, 0) (1, 0) 0
  have hsome : v2scanF 2 (scanList mC7 (0, 0))
      = some [(((0, 0) : GridPos), 0), (((1, 0) : GridPos), 0)] := by
    rw [show v2scanF 2 (scanList mC7 (0, 0)) = some (v2scan 2 (scanList mC7 (0, 0))) from
      v2scanF_fold_eq 2 (by norm_num) _ [], hscan]
  constructor
  · unfold find_hand_position_v3
    rw [hsome, Option.some_bind]
    rw [if_pos (by norm_num)]
    rw [if_pos ⟨by norm_num, Or.inl (by norm_num)⟩]
  · unfold find_hand_position_v2
    rw [hsome, Option.some_bind]
    rw [if_pos ⟨by norm_num, by norm_num⟩]
    exact Option.some_ne_none _

/-- Helper: number of scanned prototypes of a rectangular grid. -/
theorem scanList_length_rect (m : List (List Neuron)) (q : ℝ × ℝ) (C : ℕ)
    (hrect : ∀ row ∈ m, row.length = C) :
    (scanList m q).length = m.length * C := by
  unfold scanList
  have hrows : ∀ row ∈ (List.range m.length).map (fun i =>
      (List.range (m.getD i []).length).map fun j =>
        (((i, j) : GridPos), queryDist m q i j)), row.length = C := by
    intro row hrow
    obtain ⟨i, hi, rfl⟩ := List.mem_map.mp hrow
    rw [List.length_map, List.length_range]
    have hiR := List.mem_range.mp hi
    rw [List.getD_eq_getElem m [] hiR]
    exact hrect _ (List.getElem_mem hiR)
  rw [flatten_length_rect _ C hrows, List.length_map, List.length_range]

/-- Helper: with `nb_values = 0` the scan fails on its first prototype
(`closest_values[-1]` on an empty Python list). -/
theorem v2scanF_zero_none (l : List ScanEntry) (hl : l ≠ []) :
    v2scanF 0 l = none := by
  obtain ⟨p, t, rfl⟩ := List.exists_cons_of_ne_nil hl
  show (p :: t).foldlM (v2stepF 0) [] = none
  rw [List.foldlM_cons]
  have hstep : v2stepF 0 [] p = none := by
    unfold v2stepF
    rw [if_neg (by simp)]
    rfl
  rw [hstep]
  rfl

/-- C8 (amended): on a map with at least one prototype, both k-based
estimators fail (raise, modelled as `none`) whenever `k < 1` or
`k > rows * cols`; the proviso of at least one prototype is forced, because on
the zero-prototype map the weighted estimator with `k = 0` runs no loop at all
and returns an empty selection successfully. -/
theorem C8_invalid_k_amended (m : List (List Neuron)) (q : ℝ × ℝ) (k C : ℕ)
    (hrect : ∀ row ∈ m, row.length = C) (hpos : 0 < m.length * C)
    (hk : k = 0 ∨ m.length * C < k) :
    find_hand_position_v2 m q k = none ∧ find_hand_position_v3 m q k = none := by
  have hslen : (scanList m q).length = m.length * C := scanList_length_rect m q C hrect
  rcases hk with hk0 | hkbig
  · subst hk0
    have hne : scanList m q ≠ [] := by
      intro h
      rw [h] at hslen
      rw [← hslen] at hpos
      exact absurd hpos (by norm_num)
    have hnone := v2scanF_zero_none (scanList m q) hne
    constructor
    · unfold find_hand_position_v2
      rw [hnone]
      rfl
    · unfold find_hand_position_v3
      rw [hnone]
      rfl
  · have hk1 : 1 ≤ k := by omega
    have hsome : v2scanF k (scanList m q) = some (v2scan k (scanList m q)) :=
      v2scanF_fold_eq k hk1 _ []
    have hlen : (v2scan k (scanList m q)).length = m.length * C := by
      have hfold := v2scan_fold_length k (scanList m q) [] (by simp)
      simp only [List.length_nil, Nat.zero_add] at hfold
      rw [show v2scan k (scanList m q) = (scanList m q).foldl (v2step k) [] from rfl,
        hfold, hslen, min_eq_right (by omega)]
    have hgate : ¬ k ≤ (v2scan k (scanList m q)).length := by
      rw [hlen]
      omega
    constructor
    · unfold find_hand_position_v2
      rw [hsome, Option.some_bind, if_neg (by
        rintro ⟨-, h2⟩
        exact hgate h2)]
    · unfold find_hand_position_v3
      rw [hsome, Option.some_bind, if_neg hgate]

/-- Witness for the amended C8 on the concrete one-cell map with `k = 0`. -/
theorem C8_invalid_k_amended_witness :
    (∀ row ∈ som0.map, row.length = 1) ∧ 0 < som0.map.length * 1
      ∧ ((0 : ℕ) = 0 ∨ som0.map.length * 1 < 0)
      ∧ find_hand_position_v2 som0.map (0, 0) 0 = none
      ∧ find_hand_position_v3 som0.map (0, 0) 0 = none := by
  have hrect : ∀ row ∈ som0.map, row.length = 1 := by
    intro row hrow
    have hre : row = [⟨[0, 0], 0, 0, 0⟩] := by simpa [som0] using hrow
    rw [hre]
    rfl
  have hres := C8_invalid_k_amended som0.map (0, 0) 0 1 hrect (by norm_num [som0])
    (Or.inl rfl)
  exact ⟨hrect, by norm_num [som0], Or.inl rfl, hres.1, hres.2⟩

/-- Counterexample to C8 as stated: on the map with zero prototypes,
`find_hand_position_v3` with `k = 0 < 1` does not fail: no loop iteration runs
in Python, and the call returns an empty selection with estimate (0, 0). -/
theorem C8_invalid_k_counterexample :
    find_hand_position_v3 ([] : List (List Neuron)) (0, 0) 0
      = some (([] : List GridPos), ((0 : ℝ), (0 : ℝ))) := by
  unfold find_hand_position_v3
  have hscan : v2scanF 0 (scanList ([] : List (List Neuron)) (0, 0)) = some [] := rfl
  rw [hscan, Option.some_bind]
  rw [if_pos (by norm_num)]
  rw [if_neg (by
    rintro ⟨h1, -⟩
    exact absurd h1 (by norm_num))]
  simp

/-- C9: for `stepCount ≥ 2`, `mouvement_v1` returns exactly `stepCount` points:
the estimates at the `stepCount - 1` evenly spaced interpolation fractions
`index/(stepCount-1)` for `index = 0 .. stepCount-2` (each in `[0, 1)`, the
first query point being exactly `fromPoint`), followed by the estimate exactly
at `toPoint`. -/
theorem C9_mouvement_v1_structure (m : List (List Neuron)) (f t : ℝ × ℝ) (n : ℕ)
    (hn : 2 ≤ n) :
    (mouvement_v1 m f t n).length = n
    ∧ (∀ i, i < n - 1 →
        (mouvement_v1 m f t n).getD i default
          = find_hand_position_v1 m
              (f.1 + ((i : ℝ) / ((n - 1 : ℕ) : ℝ)) * (t.1 - f.1),
               f.2 + ((i : ℝ) / ((n - 1 : ℕ) : ℝ)) * (t.2 - f.2))
          ∧ 0 ≤ (i : ℝ) / ((n - 1 : ℕ) : ℝ) ∧ (i : ℝ) / ((n - 1 : ℕ) : ℝ) < 1)
    ∧ (mouvement_v1 m f t n).getD 0 default = find_hand_position_v1 m (f.1, f.2)
    ∧ (mouvement_v1 m f t n).getD (n - 1) default
        = find_hand_position_v1 m (t.1, t.2) := by
  have hd1 : (0 : ℝ) < ((n - 1 : ℕ) : ℝ) := by
    have hstep : (0 : ℕ) < n - 1 := by omega
    exact_mod_cast hstep
  unfold mouvement_v1
  set A := (List.range (n - 1)).map (fun (index : ℕ) => find_hand_position_v1 m
      (f.1 + ((index : ℝ) / ((n - 1 : ℕ) : ℝ)) * (t.1 - f.1),
       f.2 + ((index : ℝ) / ((n - 1 : ℕ) : ℝ)) * (t.2 - f.2))) with hA
  have hAlen : A.length = n - 1 := by
    rw [hA, List.length_map, List.length_range]
  have hget : ∀ i, i < n - 1 → (A ++ [find_hand_position_v1 m (t.1, t.2)]).getD i default
      = find_hand_position_v1 m
          (f.1 + ((i : ℝ) / ((n - 1 : ℕ) : ℝ)) * (t.1 - f.1),
           f.2 + ((i : ℝ) / ((n - 1 : ℕ) : ℝ)) * (t.2 - f.2)) := by
    intro i hi
    have hiA : i < A.length := by omega
    rw [getD_append_lt A _ i default hiA]
    rw [hA]
    rw [getD_map_lt _ (List.range (n - 1)) i default (by rw [List.length_range]; exact hi)]
    rw [List.getElem_range]
  refine ⟨?_, ?_, ?_, ?_⟩
  · rw [List.length_append, hAlen]
    simp only [List.length_singleton]
    omega
  · intro i hi
    refine ⟨hget i hi, ?_, ?_⟩
    · exact div_nonneg (Nat.cast_nonneg i) (le_of_lt hd1)
    · rw [div_lt_one hd1]
      exact_mod_cast hi
  · rw [hget 0 (by omega)]
    have hz : ((((0 : ℕ)) : ℝ) / ((n - 1 : ℕ) : ℝ)) = 0 := by
      norm_num
    rw [hz]
    norm_num
  · rw [show n - 1 = A.length + 0 from by omega]
    rw [getD_append_add]
    rfl

/-- Witness for C9 with `stepCount = 2` on the empty grid. -/
theorem C9_mouvement_v1_structure_witness :
    2 ≤ 2 ∧
      ((mouvement_v1 [] (0, 0) (1, 1) 2).length = 2
      ∧ (∀ i, i < 2 - 1 →
          (mouvement_v1 [] (0, 0) (1, 1) 2).getD i default
            = find_hand_position_v1 []
                (((0, 0) : ℝ × ℝ).1 + ((i : ℝ) / ((2 - 1 : ℕ) : ℝ))
                    * (((1, 1) : ℝ × ℝ).1 - ((0, 0) : ℝ × ℝ).1),
                 ((0, 0) : ℝ × ℝ).2 + ((i : ℝ) / ((2 - 1 : ℕ) : ℝ))
                    * (((1, 1) : ℝ × ℝ).2 - ((0, 0) : ℝ × ℝ).2))
            ∧ 0 ≤ (i : ℝ) / ((2 - 1 : ℕ) : ℝ) ∧ (i : ℝ) / ((2 - 1 : ℕ) : ℝ) < 1)
      ∧ (mouvement_v1 [] (0, 0) (1, 1) 2).getD 0 default
          = find_hand_position_v1 [] (((0, 0) : ℝ × ℝ).1, ((0, 0) : ℝ × ℝ).2)
      ∧ (mouvement_v1 [] (0, 0) (1, 1) 2).getD (2 - 1) default
          = find_hand_position_v1 [] (((1, 1) : ℝ × ℝ).1, ((1, 1) : ℝ × ℝ).2)) :=
  ⟨le_refl 2, C9_mouvement_v1_structure [] (0, 0) (1, 1) 2 (le_refl 2)⟩

/-- Helper: a successful `optSeq` returns one value per query, in order. -/
theorem optSeq_some {α : Type} : ∀ (l : List (Option α)) (s : List α),
    optSeq l = some s →
      s.length = l.length
        ∧ ∀ (d : α) (i : ℕ), i < l.length → l.getD i none = some (s.getD i d)
  | [], s, h => by
    have hs : s = [] := by
      simpa [optSeq] using h.symm
    subst hs
    exact ⟨rfl, by intro d i hi; simp at hi⟩
  | o :: t, s, h => by
    simp only [optSeq] at h
    cases o with
    | none => simp at h
    | some a =>
      rw [Option.some_bind] at h
      cases hts : optSeq t with
      | none =>
        rw [hts] at h
        simp at h
      | some st =>
        rw [hts] at h
        simp only [Option.map_some'] at h
        have hs : s = a :: st := by
          injection h with h
          exact h.symm
        subst hs
        obtain ⟨hlen, hgets⟩ := optSeq_some t st hts
        refine ⟨by simp [hlen], ?_⟩
        intro d i hi
        match i with
        | 0 => simp
        | i + 1 =>
          simp only [List.getD_cons_succ]
          exact hgets d i (by simpa using hi)

/-- Helper: structure of a successful trajectory built from per-step queries
plus one final query. -/
theorem mouvement_opt_structure {β : Type} [Inhabited β] (A : List (Option β))
    (fin : Option β) (steps : List β) (h : optSeq (A ++ [fin]) = some steps) :
    steps.length = A.length + 1
    ∧ fin = some (steps.getD A.length default)
    ∧ ∀ i, i < A.length → A.getD i none = some (steps.getD i default) := by
  obtain ⟨hlen, hget⟩ := optSeq_some _ _ h
  rw [List.length_append, List.length_singleton] at hlen
  refine ⟨hlen, ?_, ?_⟩
  · have hlast := hget default A.length (by
      rw [List.length_append, List.length_singleton]
      omega)
    have he : (A ++ [fin]).getD A.length none = fin := getD_append_add A [fin] 0 none
    rw [he] at hlast
    exact hlast
  · intro i hi
    have hstep := hget default i (by
      rw [List.length_append, List.length_singleton]
      omega)
    rw [getD_append_lt A [fin] i none hi] at hstep
    exact hstep

/-- Helper: the concrete scan of the 4-by-1 grid has distances 0, 1, 2, 3. -/
theorem scanList_mC10 :
    scanList mC10 (0, 0)
      = [(((0, 0) : GridPos), (0 : ℝ)), (((1, 0) : GridPos), 1),
         (((2, 0) : GridPos), 2), (((3, 0) : GridPos), 3)] := by
  have h4 : Real.sqrt 4 = 2 := by
    rw [show (4 : ℝ) = 2 ^ 2 by norm_num, Real.sqrt_sq (by norm_num : (0 : ℝ) ≤ 2)]
  have h9 : Real.sqrt 9 = 3 := by
    rw [show (9 : ℝ) = 3 ^ 2 by norm_num, Real.sqrt_sq (by norm_num : (0 : ℝ) ≤ 3)]
  unfold scanList queryDist
  norm_num [mC10, List.range_succ, w01, cellOf, h4, h9]

/-- Helper: the k = 4 scan of the concrete 4-by-1 grid keeps all four entries. -/
theorem v2scan_mC10_4 :
    v2scan 4 (scanList mC10 (0, 0))
      = [(((0, 0) : GridPos), (0 : ℝ)), (((1, 0) : GridPos), 1),
         (((2, 0) : GridPos), 2), (((3, 0) : GridPos), 3)] := by
  rw [scanList_mC10]
  unfold v2scan
  rw [List.foldl_cons, List.foldl_cons, List.foldl_cons, List.foldl_cons, List.foldl_nil]
  rw [show v2step 4 [] (((0, 0) : GridPos), (0 : ℝ)) = [(((0, 0) : GridPos), (0 : ℝ))] from by
    unfold v2step
    rw [if_pos (by norm_num)]
    rfl]
  rw [show v2step 4 [(((0, 0) : GridPos), (0 : ℝ))] (((1, 0) : GridPos), (1 : ℝ))
      = [(((0, 0) : GridPos), (0 : ℝ)), (((1, 0) : GridPos), 1)] from by
    unfold v2step
    rw [if_pos (by norm_num)]
    unfold sortD
    norm_num [List.insertionSort, List.orderedInsert]]
  rw [show v2step 4 [(((0, 0) : GridPos), (0 : ℝ)), (((1, 0) : GridPos), 1)]
        (((2, 0) : GridPos), (2 : ℝ))
      = [(((0, 0) : GridPos), (0 : ℝ)), (((1, 0) : GridPos), 1),
         (((2, 0) : GridPos), 2)] from by
    unfold v2step
    rw [if_pos (by norm_num)]
    unfold sortD
    norm_num [List.insertionSort, List.orderedInsert]]
  unfold v2step
  rw [if_pos (by norm_num)]
  unfold sortD
  norm_num [List.insertionSort, List.orderedInsert]

/-- Helper: the k = 3 scan of the concrete 4-by-1 grid keeps the three nearest. -/
theorem v2scan_mC10_3 :
    v2scan 3 (scanList mC10 (0, 0))
      = [(((0, 0) : GridPos), (0 : ℝ)), (((1, 0) : GridPos), 1),
         (((2, 0) : GridPos), 2)] := by
  rw [scanList_mC10]
  unfold v2scan
  rw [List.foldl_cons, List.foldl_cons, List.foldl_cons, List.foldl_cons, List.foldl_nil]
  rw [show v2step 3 [] (((0, 0) : GridPos), (0 : ℝ)) = [(((0, 0) : GridPos), (0 : ℝ))] from by
    unfold v2step
    rw [if_pos (by norm_num)]
    rfl]
  rw [show v2step 3 [(((0, 0) : GridPos), (0 : ℝ))] (((1, 0) : GridPos), (1 : ℝ))
      = [(((0, 0) : GridPos), (0 : ℝ)), (((1, 0) : GridPos), 1)] from by
    unfold v2step
    rw [if_pos (by norm_num)]
    unfold sortD
    norm_num [List.insertionSort, List.orderedInsert]]
  rw [show v2step 3 [(((0, 0) : GridPos), (0 : ℝ)), (((1, 0) : GridPos), 1)]
        (((2, 0) : GridPos), (2 : ℝ))
      = [(((0, 0) : GridPos), (0 : ℝ)), (((1, 0) : GridPos), 1),
         (((2, 0) : GridPos), 2)] from by
    unfold v2step
    rw [if_pos (by norm_num)]
    unfold sortD
    norm_num [List.insertionSort, List.orderedInsert]]
  unfold v2step
  rw [if_neg (by norm_num)]
  rw [show ([(((0, 0) : GridPos), (0 : ℝ)), (((1, 0) : GridPos), 1),
      (((2, 0) : GridPos), 2)] : List ScanEntry)[3 - 1]?
      = some (((2, 0) : GridPos), (2 : ℝ)) from rfl]
  dsimp only
  rw [if_neg (by norm_num)]

/-- Helper: the uniform estimator with `k = 3` on the concrete 4-by-1 grid
selects the three nearest positions. -/
theorem find_v2_mC10_3 : ∃ e, find_hand_position_v2 mC10 (0, 0) 3
    = some ([((0, 0) : GridPos), (1, 0), (2, 0)], e) := by
  unfold find_hand_position_v2
  rw [show v2scanF 3 (scanList mC10 (0, 0)) = some (v2scan 3 (scanList mC10 (0, 0))) from
    v2scanF_fold_eq 3 (by norm_num) _ [], v2scan_mC10_3, Option.some_bind]
  rw [if_pos (by norm_num)]
  exact ⟨_, rfl⟩

/-- Helper: the uniform estimator with `k = 4` on the concrete 4-by-1 grid
selects all four positions. -/
theorem find_v2_mC10_4 : ∃ e, find_hand_position_v2 mC10 (0, 0) 4
    = some ([((0, 0) : GridPos), (1, 0), (2, 0), (3, 0)], e) := by
  unfold find_hand_position_v2
  rw [show v2scanF 4 (scanList mC10 (0, 0)) = some (v2scan 4 (scanList mC10 (0, 0))) from
    v2scanF_fold_eq 4 (by norm_num) _ [], v2scan_mC10_4, Option.some_bind]
  rw [if_pos (by norm_num)]
  exact ⟨_, rfl⟩

/-- Helper: the weighted estimator with `k = 3` on the concrete 4-by-1 grid
succeeds and selects the three nearest positions. -/
theorem find_v3_mC10_3 : ∃ e, find_hand_position_v3 mC10 (0, 0) 3
    = some ([((0, 0) : GridPos), (1, 0), (2, 0)], e) := by
  unfold find_hand_position_v3
  rw [show v2scanF 3 (scanList mC10 (0, 0)) = some (v2scan 3 (scanList mC10 (0, 0))) from
    v2scanF_fold_eq 3 (by norm_num) _ [], v2scan_mC10_3, Option.some_bind]
  rw [if_pos (by norm_num)]
  have hsum : ((([(((0, 0) : GridPos), (0 : ℝ)), (((1, 0) : GridPos), 1),
      (((2, 0) : GridPos), 2)] : List ScanEntry).take 3).map Prod.snd).sum = 3 := by
    norm_num
  rw [if_neg (by
    rintro ⟨-, hor⟩
    rcases hor with h0 | h1
    · rw [hsum] at h0
      norm_num at h0
    · norm_num at h1)]
  exact ⟨_, rfl⟩

/-- Helper: the weighted estimator with `k = 4` on the concrete 4-by-1 grid
succeeds and selects all four positions. -/
theorem find_v3_mC10_4 : ∃ e, find_hand_position_v3 mC10 (0, 0) 4
    = some ([((0, 0) : GridPos), (1, 0), (2, 0), (3, 0)], e) := by
  unfold find_hand_position_v3
  rw [show v2scanF 4 (scanList mC10 (0, 0)) = some (v2scan 4 (scanList mC10 (0, 0))) from
    v2scanF_fold_eq 4 (by norm_num) _ [], v2scan_mC10_4, Option.some_bind]
  rw [if_pos (by norm_num)]
  have hsum : ((([(((0, 0) : GridPos), (0 : ℝ)), (((1, 0) : GridPos), 1),
      (((2, 0) : GridPos), 2), (((3, 0) : GridPos), 3)] : List ScanEntry).take 4).map
        Prod.snd).sum = 6 := by
    norm_num
  rw [if_neg (by
    rintro ⟨-, hor⟩
    rcases hor with h0 | h1
    · rw [hsum] at h0
      norm_num at h0
    · norm_num at h1)]
  exact ⟨_, rfl⟩

/-- C10: in both k-based trajectory generators the final point is computed with
a different neighbor count than all preceding points: every successful run of
`mouvement_v2`/`mouvement_v3` has its first `stepCount - 1` points produced by
the estimator with `k = 4` at the interpolated query points and its last point
produced by the estimator with `k = 3` at `toPoint`; both generators do succeed
on a concrete 4-prototype map, on which the `k = 3` estimate at the query is
not the `k = 4` estimate (the selections differ), so the last returned point is
not the `k = 4` estimate at `toPoint`. -/
theorem C10_final_point_k3 (m : List (List Neuron)) (f t : ℝ × ℝ) (n : ℕ)
    (hn : 2 ≤ n) :
    (∀ steps, mouvement_v2 m f t n = some steps →
        steps.length = n
        ∧ find_hand_position_v2 m (t.1, t.2) 3 = some (steps.getD (n - 1) default)
        ∧ ∀ i, i < n - 1 →
            find_hand_position_v2 m
              (f.1 + ((i : ℝ) / ((n - 1 : ℕ) : ℝ)) * (t.1 - f.1),
               f.2 + ((i : ℝ) / ((n - 1 : ℕ) : ℝ)) * (t.2 - f.2)) 4
              = some (steps.getD i default))
    ∧ (∀ steps, mouvement_v3 m f t n = some steps →
        steps.length = n
        ∧ find_hand_position_v3 m (t.1, t.2) 3 = some (steps.getD (n - 1) default)
        ∧ ∀ i, i < n - 1 →
            find_hand_position_v3 m
              (f.1 + ((i : ℝ) / ((n - 1 : ℕ) : ℝ)) * (t.1 - f.1),
               f.2 + ((i : ℝ) / ((n - 1 : ℕ) : ℝ)) * (t.2 - f.2)) 4
              = some (steps.getD i default))
    ∧ (mouvement_v2 mC10 (0, 0) (0, 0) 2).isSome = true
    ∧ (mouvement_v3 mC10 (0, 0) (0, 0) 2).isSome = true
    ∧ find_hand_position_v2 mC10 (0, 0) 3 ≠ find_hand_position_v2 mC10 (0, 0) 4
    ∧ find_hand_position_v3 mC10 (0, 0) 3 ≠ find_hand_position_v3 mC10 (0, 0) 4 := by
  refine ⟨?_, ?_, ?_, ?_, ?_, ?_⟩
  · intro steps hsteps
    unfold mouvement_v2 at hsteps
    obtain ⟨hlen, hfin, hmid⟩ := mouvement_opt_structure _ _ steps hsteps
    have hAlen : ((List.range (n - 1)).map fun (index : ℕ) =>
        find_hand_position_v2 m
          (f.1 + ((index : ℝ) / ((n - 1 : ℕ) : ℝ)) * (t.1 - f.1),
           f.2 + ((index : ℝ) / ((n - 1 : ℕ) : ℝ)) * (t.2 - f.2)) 4).length = n - 1 := by
      rw [List.length_map, List.length_range]
    rw [hAlen] at hlen hfin hmid
    refine ⟨by omega, hfin, ?_⟩
    intro i hi
    have hthis := hmid i hi
    rw [getD_map_lt _ (List.range (n - 1)) i none
      (by rw [List.length_range]; exact hi)] at hthis
    rw [List.getElem_range] at hthis
    exact hthis
  · intro steps hsteps
    unfold mouvement_v3 at hsteps
    obtain ⟨hlen, hfin, hmid⟩ := mouvement_opt_structure _ _ steps hsteps
    have hAlen : ((List.range (n - 1)).map fun (index : ℕ) =>
        find_hand_position_v3 m
          (f.1 + ((index : ℝ) / ((n - 1 : ℕ) : ℝ)) * (t.1 - f.1),
           f.2 + ((index : ℝ) / ((n - 1 : ℕ) : ℝ)) * (t.2 - f.2)) 4).length = n - 1 := by
      rw [List.length_map, List.length_range]
    rw [hAlen] at hlen hfin hmid
    refine ⟨by omega, hfin, ?_⟩
    intro i hi
    have hthis := hmid i hi
    rw [getD_map_lt _ (List.range (n - 1)) i none
      (by rw [List.length_range]; exact hi)] at hthis
    rw [List.getElem_range] at hthis
    exact hthis
  · obtain ⟨e4, he4⟩ := find_v2_mC10_4
    obtain ⟨e3, he3⟩ := find_v2_mC10_3
    unfold mouvement_v2
    rw [show List.range (2 - 1) = [0] from rfl]
    simp only [List.map_cons, List.map_nil, List.nil_append, List.cons_append]
    rw [show (((0, 0) : ℝ × ℝ).1 + (((0 : ℕ) : ℝ) / ((2 - 1 : ℕ) : ℝ))
          * (((0, 0) : ℝ × ℝ).1 - ((0, 0) : ℝ × ℝ).1),
        ((0, 0) : ℝ × ℝ).2 + (((0 : ℕ) : ℝ) / ((2 - 1 : ℕ) : ℝ))
          * (((0, 0) : ℝ × ℝ).2 - ((0, 0) : ℝ × ℝ).2)) = ((0 : ℝ), (0 : ℝ)) from by
      norm_num]
    rw [show (((0, 0) : ℝ × ℝ).1, ((0, 0) : ℝ × ℝ).2) = ((0 : ℝ), (0 : ℝ)) from rfl]
    rw [he4, he3]
    simp [optSeq]
  · obtain ⟨e4, he4⟩ := find_v3_mC10_4
    obtain ⟨e3, he3⟩ := find_v3_mC10_3
    unfold mouvement_v3
    rw [show List.range (2 - 1) = [0] from rfl]
    simp only [List.map_cons, List.map_nil, List.nil_append, List.cons_append]
    rw [show (((0, 0) : ℝ × ℝ).1 + (((0 : ℕ) : ℝ) / ((2 - 1 : ℕ) : ℝ))
          * (((0, 0) : ℝ × ℝ).1 - ((0, 0) : ℝ × ℝ).1),
        ((0, 0) : ℝ × ℝ).2 + (((0 : ℕ) : ℝ) / ((2 - 1 : ℕ) : ℝ))
          * (((0, 0) : ℝ × ℝ).2 - ((0, 0) : ℝ × ℝ).2)) = ((0 : ℝ), (0 : ℝ)) from by
      norm_num]
    rw [show (((0, 0) : ℝ × ℝ).1, ((0, 0) : ℝ × ℝ).2) = ((0 : ℝ), (0 : ℝ)) from rfl]
    rw [he4, he3]
    simp [optSeq]
  · obtain ⟨e3, he3⟩ := find_v2_mC10_3
    obtain ⟨e4, he4⟩ := find_v2_mC10_4
    intro heq
    rw [he3, he4] at heq
    simp at heq
  · obtain ⟨e3, he3⟩ := find_v3_mC10_3
    obtain ⟨e4, he4⟩ := find_v3_mC10_4
    intro heq
    rw [he3, he4] at heq
    simp at heq

/-- Witness for C10 with `stepCount = 2` on the concrete 4-by-1 grid. -/
theorem C10_final_point_k3_witness :
    2 ≤ 2 ∧
      ((mouvement_v2 mC10 (0, 0) (0, 0) 2).isSome = true
        ∧ (mouvement_v3 mC10 (0, 0) (0, 0) 2).isSome = true
        ∧ find_hand_position_v2 mC10 (0, 0) 3 ≠ find_hand_position_v2 mC10 (0, 0) 4
        ∧ find_hand_position_v3 mC10 (0, 0) 3 ≠ find_hand_position_v3 mC10 (0, 0) 4) := by
  have hres := C10_final_point_k3 mC10 (0, 0) (0, 0) 2 (le_refl 2)
  exact ⟨le_refl 2, hres.2.2.1, hres.2.2.2.1, hres.2.2.2.2.1, hres.2.2.2.2.2⟩
